import Mathlib

/-!
# Verification of the DocumentComparison comparison engine

Shallow embedding of `src/utils/advancedDiffEngine.ts` (class `AdvancedDiffEngine`)
and the structural parts of `src/utils/advancedDocumentParser.ts`
(class `AdvancedDocumentParser`) of the DocumentComparison repository.

Conventions of the embedding:
* JavaScript strings are modelled as Lean `String`s (sequences of code points;
  `String.length` stands for JS `.length`).
* JS `Map` is modelled by its list of `set` operations; `get` returns the most
  recent binding (`mapGet` below).
* JS numbers appearing in score/statistics positions are modelled as `ℚ`,
  except where `NaN`/`±Infinity` can arise, where the sum type `JsNum` is used
  with IEEE-754 rules for division by zero, `Math.max` and truthiness.
* A JS `TypeError` (calling a method that does not exist, reading a property
  of `undefined`) is modelled by `Except.error` of a `JsError`.
* The external `diff` npm package (jsdiff) is modelled by `diffLines`/`diffWords`
  below: tokenize, drop empty tokens, return a single unchanged component when
  the two token sequences are equal (jsdiff's identity fast path, which fires
  even for two empty inputs), otherwise a minimal LCS edit script with removed
  segments emitted before added ones, merged into maximal runs.
-/

/-- Severity levels of a difference (`'low' | 'medium' | 'high' | 'critical'`). -/
inductive Severity where
  | low | medium | high | critical
  deriving DecidableEq, Repr

/-- Difference types (`'addition' | 'deletion' | 'modification' | 'format' |
'structure'`; the last is named `struct` here since `structure` is a Lean
keyword). -/
inductive DiffType where
  | addition | deletion | modification | format | struct
  deriving DecidableEq, Repr

/-- Difference categories (`'text' | 'format' | 'structure' | 'metadata'`;
`'structure'` is named `struct` here since `structure` is a Lean keyword). -/
inductive Category where
  | text | format | struct | metadata
  deriving DecidableEq, Repr

/-- `DocumentPosition` from `types/advanced.ts`. -/
structure DocumentPosition where
  page : Nat
  line : Nat
  column : Nat
  offset : Nat
  absoluteOffset : Nat
  deriving DecidableEq, Repr

/-- `DocumentLine`: a line of a page with its offset span. -/
structure DocumentLine where
  lineNumber : Nat
  content : String
  startOffset : Nat
  endOffset : Nat
  pageNumber : Nat
  deriving DecidableEq, Repr

/-- `DocumentPage` (the fields the engine and the index builder read). -/
structure DocumentPage where
  pageNumber : Nat
  content : String
  lines : List DocumentLine
  renderOffset : Nat
  deriving DecidableEq, Repr

/-- `DocumentSection`: the engine only ever reads the title of a section. -/
structure DocumentSection where
  title : String
  deriving DecidableEq, Repr

/-- `DocumentStructure` (the fields `AdvancedDiffEngine` reads). -/
structure DocumentStructure where
  pageCount : Nat
  lineCount : Nat
  characterCount : Nat
  pages : List DocumentPage
  sections : List DocumentSection
  deriving DecidableEq, Repr

/-- `PreciseDifference`, the atomic comparison output. -/
structure PreciseDifference where
  id : String
  type : DiffType
  severity : Severity
  category : Category
  description : String
  leftContent : String
  rightContent : String
  leftPosition : DocumentPosition
  rightPosition : DocumentPosition
  contextBefore : String
  contextAfter : String
  similarity : ℚ
  confidence : ℚ
  deriving DecidableEq, Repr

/-- A JS number that can be `NaN` or infinite (results of unguarded divisions). -/
inductive JsNum where
  | num : ℚ → JsNum
  | nan
  | posInf
  | negInf
  deriving DecidableEq, Repr

/-- JS division `a / b` (IEEE-754: `0/0 = NaN`, `±x/0 = ±Infinity`). -/
def jsDiv (a b : ℚ) : JsNum :=
  if b = 0 then
    if a = 0 then JsNum.nan else if 0 < a then JsNum.posInf else JsNum.negInf
  else JsNum.num (a / b)

/-- JS `Math.max(0, x)` (`Math.max` propagates `NaN`). -/
def jsMax0 : JsNum → JsNum
  | JsNum.num q => JsNum.num (max 0 q)
  | JsNum.nan => JsNum.nan
  | JsNum.posInf => JsNum.posInf
  | JsNum.negInf => JsNum.num 0

/-- JS `x || 0`: `NaN` (and `0`, which is unchanged) are falsy. -/
def jsOr0 : JsNum → JsNum
  | JsNum.nan => JsNum.num 0
  | x => x

/-- JS `x < q` on a possibly non-finite number (`NaN < q` is `false`). -/
def jsLtQ (x : JsNum) (q : ℚ) : Bool :=
  match x with
  | JsNum.num a => decide (a < q)
  | JsNum.nan => false
  | JsNum.posInf => false
  | JsNum.negInf => true

/-- `ComparisonStatistics`. -/
structure ComparisonStatistics where
  totalDifferences : Nat
  additions : Nat
  deletions : Nat
  modifications : Nat
  formatChanges : Nat
  structureChanges : Nat
  critical : Nat
  high : Nat
  medium : Nat
  low : Nat
  pageDistribution : List (Nat × Nat)
  overallSimilarity : JsNum
  averageConfidence : JsNum
  deriving DecidableEq, Repr

/-- `ComparisonSummary`. -/
structure ComparisonSummary where
  majorChanges : List String
  structuralChanges : List String
  formatChanges : List String
  recommendations : List String
  deriving DecidableEq, Repr

/-- `ComparisonResult`. -/
structure ComparisonResult where
  differences : List PreciseDifference
  statistics : ComparisonStatistics
  summary : ComparisonSummary
  deriving DecidableEq, Repr

/-- Runtime `TypeError`s the engine can raise. -/
inductive JsError where
  /-- `this.detectWordLevelChanges` is referenced in `detectLineDifferences`
  but no such method exists on `AdvancedDiffEngine`; calling it throws
  `TypeError: this.detectWordLevelChanges is not a function`. -/
  | missingDetectWordLevelChanges
  /-- Reading `page.lines[pageLineIndex]` out of bounds would yield `undefined`
  and the following property access would throw (unreachable from the entry
  point, see `findPositionByLineIndex`). -/
  | undefinedLineAccess
  deriving DecidableEq, Repr

/-! ## String helpers (JS semantics) -/

/-- JS whitespace class `\s` (the ASCII part; the engine's inputs are text). -/
def isJsWs (c : Char) : Bool :=
  c = ' ' || c = '\t' || c = '\n' || c = '\r' || c = '\x0b' || c = '\x0c'

/-- JS `String.prototype.split('\n')` on a character list: always returns at
least one (possibly empty) piece. -/
def splitLinesCh : List Char → List (List Char)
  | [] => [[]]
  | c :: rest =>
    if c = '\n' then [] :: splitLinesCh rest
    else
      match splitLinesCh rest with
      | p :: ps => (c :: p) :: ps
      | [] => [[c]]

/-- JS `content.split('\n')`. -/
def jsSplitNl (s : String) : List String :=
  (splitLinesCh s.data).map (fun l => String.mk l)

/-- Number of `'\n'` characters: `(value.match(/\n/g) || []).length`. -/
def countNewlines (s : String) : Nat :=
  s.data.count '\n'

/-- JS `String.prototype.substring(a, b)`: clamps both arguments to
`[0, length]` and swaps them when `a > b`. -/
def jsSubstring (s : String) (a b : Int) : String :=
  let clamp : Int → Nat := fun x => min (max x 0).toNat s.length
  let lo := min (clamp a) (clamp b)
  let hi := max (clamp a) (clamp b)
  String.mk ((s.data.drop lo).take (hi - lo))

/-- JS `String.prototype.trim` (strips `\s` from both ends). -/
def jsTrim (s : String) : String :=
  String.mk (((s.data.dropWhile isJsWs).reverse.dropWhile isJsWs).reverse)

/-! ## Model of the `diff` npm package (jsdiff) -/

/-- One segment of an edit script: a single token kept, deleted or inserted. -/
inductive DSeg where
  | keep : String → DSeg
  | del : String → DSeg
  | ins : String → DSeg
  deriving DecidableEq, Repr

/-- The token carried by a segment. -/
def DSeg.tok : DSeg → String
  | DSeg.keep t => t
  | DSeg.del t => t
  | DSeg.ins t => t

/-- Whether a segment is an edit (costs one operation). -/
def DSeg.isEdit : DSeg → Bool
  | DSeg.keep _ => false
  | _ => true

/-- Cost of an edit script: number of inserted/deleted tokens. -/
def scriptCost (segs : List DSeg) : Nat :=
  segs.countP DSeg.isEdit

/-- Minimal (LCS-style) edit script between two token sequences, deletions
preferred before insertions — the algorithmic core of jsdiff.  The `fuel`
argument only makes the recursion structural; `diffSeq` below supplies enough
fuel that the out-of-fuel branch is never taken. -/
def diffSeqFuel : Nat → List String → List String → List DSeg
  | _, [], [] => []
  | 0, _, _ => []
  | fuel + 1, [], b :: bs => DSeg.ins b :: diffSeqFuel fuel [] bs
  | fuel + 1, a :: as, [] => DSeg.del a :: diffSeqFuel fuel as []
  | fuel + 1, a :: as, b :: bs =>
    if a = b then DSeg.keep a :: diffSeqFuel fuel as bs
    else
      let d1 := DSeg.del a :: diffSeqFuel fuel as (b :: bs)
      let d2 := DSeg.ins b :: diffSeqFuel fuel (a :: as) bs
      if scriptCost d1 ≤ scriptCost d2 then d1 else d2

/-- The edit script between two token sequences. -/
def diffSeq (as bs : List String) : List DSeg :=
  diffSeqFuel (as.length + bs.length) as bs

/-- A change object returned by jsdiff: `{value, count, added, removed}`. -/
structure DiffPart where
  value : String
  count : Nat
  added : Bool
  removed : Bool
  deriving DecidableEq, Repr

/-- The part a single segment starts. -/
def DSeg.toPart : DSeg → DiffPart
  | DSeg.keep t => { value := t, count := 1, added := false, removed := false }
  | DSeg.del t => { value := t, count := 1, added := false, removed := true }
  | DSeg.ins t => { value := t, count := 1, added := true, removed := false }

/-- jsdiff's `buildValues`: merge maximal runs of same-status segments into
single change objects. -/
def mergeSegs : List DSeg → List DiffPart
  | [] => []
  | s :: rest =>
    match mergeSegs rest with
    | [] => [s.toPart]
    | p :: ps =>
      if (s.toPart.added, s.toPart.removed) = (p.added, p.removed) then
        { value := s.tok ++ p.value, count := p.count + 1,
          added := p.added, removed := p.removed } :: ps
      else s.toPart :: p :: ps

/-- jsdiff `Diff.prototype.diff` on token lists: the identity fast path
returns one unchanged component (even when both inputs are empty), otherwise
the merged minimal edit script. -/
def jsdiffCore (oldT newT : List String) : List DiffPart :=
  if oldT = newT then
    [{ value := String.join newT, count := newT.length, added := false, removed := false }]
  else mergeSegs (diffSeq oldT newT)

/-- jsdiff line tokenizer composed with `removeEmpty`: each token is a line
with its trailing newline attached; empty tokens are dropped. -/
def lineTokensAux : List Char → List Char → List String
  | [], acc => if acc.isEmpty then [] else [String.mk acc.reverse]
  | c :: rest, acc =>
    if c = '\n' then String.mk (acc.reverse ++ ['\n']) :: lineTokensAux rest []
    else lineTokensAux rest (c :: acc)

/-- Tokenization used by `diffLines`. -/
def lineTokenize (s : String) : List String :=
  lineTokensAux s.data []

/-- jsdiff `diffLines`. -/
def diffLines (a b : String) : List DiffPart :=
  jsdiffCore (lineTokenize a) (lineTokenize b)

/-- Word tokenizer (model of jsdiff's word tokenization composed with
`removeEmpty`): maximal runs of whitespace and of non-whitespace characters. -/
def wordTokensAux : List Char → List Char → List String
  | [], acc => if acc.isEmpty then [] else [String.mk acc.reverse]
  | c :: rest, acc =>
    match acc with
    | [] => wordTokensAux rest [c]
    | a :: _ =>
      if isJsWs a = isJsWs c then wordTokensAux rest (c :: acc)
      else String.mk acc.reverse :: wordTokensAux rest [c]

/-- Tokenization used by `diffWords`. -/
def wordTokenize (s : String) : List String :=
  wordTokensAux s.data []

/-- jsdiff `diffWords`. -/
def diffWords (a b : String) : List DiffPart :=
  jsdiffCore (wordTokenize a) (wordTokenize b)

/-! ## Levenshtein distance (`AdvancedDiffEngine.levenshteinDistance`)

The source fills a `(len(str2)+1) × (len(str1)+1)` dynamic-programming matrix
row by row; we model the computation of one row from the previous one. -/

/-- Compute the entries `matrix[i][1..]` of a DP row from the previous row.
Arguments: the character `c2 = str2[i-1]`, the remaining characters of `str1`,
the remaining entries of the previous row starting at `matrix[i-1][j-1]`, and
the entry `matrix[i][j-1]` just computed. -/
def levGo (c2 : Char) : List Char → List Nat → Nat → List Nat
  | [], _, _ => []
  | _ :: _, [], _ => []
  | a :: as, pd :: ps, qp =>
    let pj := ps.headD 0
    let q := if a = c2 then pd else min (min pd qp) pj + 1
    q :: levGo c2 as ps q

/-- One DP row `matrix[i]` (first entry `matrix[i][0] = i`). -/
def levRow (s1 : List Char) (prev : List Nat) (i : Nat) (c2 : Char) : List Nat :=
  i :: levGo c2 s1 prev i

/-- `levenshteinDistance(str1, str2)`: row-by-row DP, result `matrix[len2][len1]`. -/
def levenshteinDistance (str1 str2 : String) : Nat :=
  let s1 := str1.data
  let final := (str2.data.foldl
    (fun (acc : List Nat × Nat) c2 =>
      let i := acc.2 + 1
      (levRow s1 acc.1 i c2, i))
    (List.range (s1.length + 1), 0)).1
  final.getLastD 0

/-- `calculateWordSimilarity`: normalized Levenshtein similarity of the longer
against the shorter string, `1.0` when both are empty. -/
def calculateWordSimilarity (left right : String) : ℚ :=
  let longer := if left.length > right.length then left else right
  let shorter := if left.length > right.length then right else left
  if longer.length = 0 then 1
  else
    let editDistance := levenshteinDistance longer shorter
    ((longer.length : ℚ) - (editDistance : ℚ)) / (longer.length : ℚ)

/-! ## Parser model (`AdvancedDocumentParser`) -/

/-- Loop body of `buildLineStructure`: lines of the split content, numbered
from `idx + 1`, with running offsets (`+1` per consumed newline). -/
def buildLinesGo (pageNumber : Nat) : List String → Nat → Nat → List DocumentLine
  | [], _, _ => []
  | lc :: rest, idx, cur =>
    { lineNumber := idx + 1, content := lc, startOffset := cur,
      endOffset := cur + lc.length, pageNumber := pageNumber }
      :: buildLinesGo pageNumber rest (idx + 1) (cur + lc.length + 1)

/-- `AdvancedDocumentParser.buildLineStructure`. -/
def buildLineStructure (content : String) (pageNumber pageOffset : Nat) : List DocumentLine :=
  buildLinesGo pageNumber (jsSplitNl content) 0 pageOffset

/-- Loop body of the multi-page construction used by `parsePDFDocument`
(`parseTextDocument`/`parseWordDocument` are the one-page case): page numbers
count up from `pageNum`, offsets advance by `content.length + 1` per page. -/
def buildPagesGo : List String → Nat → Nat → List DocumentPage
  | [], _, _ => []
  | t :: rest, pageNum, cur =>
    { pageNumber := pageNum, content := t,
      lines := buildLineStructure t pageNum cur, renderOffset := cur }
      :: buildPagesGo rest (pageNum + 1) (cur + t.length + 1)

/-- The pages a document with the given page texts parses to. -/
def buildPages (texts : List String) : List DocumentPage :=
  buildPagesGo texts 1 0

/-- The offset→position bindings one line contributes: one binding for every
`i` from `startOffset` to `endOffset` inclusive (`j = i - startOffset`). -/
def lineEntries (pg : Nat) (line : DocumentLine) : List (Nat × DocumentPosition) :=
  (List.range (line.endOffset + 1 - line.startOffset)).map (fun j =>
    (line.startOffset + j,
     { page := pg, line := line.lineNumber, column := j + 1, offset := j,
       absoluteOffset := line.startOffset + j }))

/-- All offset→position bindings, in the order `buildPositionIndex` writes them. -/
def offsetEntries (pages : List DocumentPage) : List (Nat × DocumentPosition) :=
  pages.flatMap (fun pg => pg.lines.flatMap (fun line => lineEntries pg.pageNumber line))

/-- The inverse-map key `` `${page}-${line}-${column}` `` (the decimal rendering
of a triple of naturals separated by dashes is injective, so the key is
modelled by the triple itself). -/
def posKey (p : DocumentPosition) : Nat × Nat × Nat :=
  (p.page, p.line, p.column)

/-- `PositionIndex`: a JS `Map` is modelled by its list of `set` operations. -/
structure PositionIndex where
  offsetToPosition : List (Nat × DocumentPosition)
  positionToOffset : List ((Nat × Nat × Nat) × Nat)
  lineIndex : List (Nat × DocumentLine)
  pageIndex : List (Nat × DocumentPage)

/-- `Map.prototype.get`: the most recent `set` for the key wins. -/
def mapGet {κ ν : Type} [DecidableEq κ] (entries : List (κ × ν)) (k : κ) : Option ν :=
  (entries.reverse.find? (fun e => decide (e.1 = k))).map (fun e => e.2)

/-- `AdvancedDocumentParser.buildPositionIndex`: both maps are written in the
same pass, one binding pair per covered offset. -/
def buildPositionIndex (pages : List DocumentPage) : PositionIndex :=
  { offsetToPosition := offsetEntries pages
    positionToOffset := (offsetEntries pages).map (fun e => (posKey e.2, e.1))
    lineIndex := pages.flatMap (fun pg => pg.lines.map (fun l => (l.lineNumber, l)))
    pageIndex := pages.map (fun pg => (pg.pageNumber, pg)) }

/-- `positionAt`: query the offset→position map. -/
def positionAt (idx : PositionIndex) (o : Nat) : Option DocumentPosition :=
  mapGet idx.offsetToPosition o

/-- `offsetAt`: query the position→offset map by `(page, line, column)` key. -/
def offsetAt (idx : PositionIndex) (k : Nat × Nat × Nat) : Option Nat :=
  mapGet idx.positionToOffset k

/-- Number of offsets the index of a document with these page texts covers
(each page text `t` contributes the offsets `[renderOffset, renderOffset + t.length]`). -/
def totalOffsets (texts : List String) : Nat :=
  (texts.map (fun t => t.length + 1)).sum

/-! ## Engine helpers (`AdvancedDiffEngine`) -/

/-- `extractFullContent`: page contents joined with `'\n'`. -/
def extractFullContent (doc : DocumentStructure) : String :=
  String.intercalate "\n" (doc.pages.map (fun page => page.content))

/-- The position of a `\n\s*\n` paragraph break: after a newline, the regex
greedily extends through the following whitespace run and backtracks to the
last newline inside it. Returns the index (inside the run) of that newline. -/
def lastNlIdx (run : List Char) : Option Nat :=
  match run.reverse.findIdx? (fun c => c = '\n') with
  | some j => some (run.length - 1 - j)
  | none => none

/-- `fullContent.split(/\n\s*\n/)` on a character list, with a structural
fuel argument (the match consumes at least one character per step, so
`splitParasCh` below never runs out). -/
def splitParasFuel : Nat → List Char → List Char → List String
  | _, [], acc => [String.mk acc.reverse]
  | 0, _ :: _, acc => [String.mk acc.reverse]
  | fuel + 1, c :: rest, acc =>
    if c = '\n' then
      match lastNlIdx (rest.takeWhile isJsWs) with
      | some k => String.mk acc.reverse :: splitParasFuel fuel (rest.drop (k + 1)) []
      | none => splitParasFuel fuel rest (c :: acc)
    else splitParasFuel fuel rest (c :: acc)

/-- `fullContent.split(/\n\s*\n/)` on a character list. -/
def splitParasCh (cs acc : List Char) : List String :=
  splitParasFuel cs.length cs acc

/-- `extractParagraphs`: split the full content on blank-line separators and
drop pieces that are whitespace-only. -/
def extractParagraphs (doc : DocumentStructure) : List String :=
  (splitParasCh (extractFullContent doc).data []).filter
    (fun para => (jsTrim para).length > 0)

/-- Loop of `findPositionByLineIndex` over the pages, carrying `currentLine`.
Reading a line slot that does not exist would be a `TypeError`. -/
def findPosGo (lineIndex : Nat) : List DocumentPage → Nat → Except JsError DocumentPosition
  | [], _ =>
    -- 默认返回第一页第一行 (default: first page, first line)
    Except.ok { page := 1, line := 1, column := 1, offset := 0, absoluteOffset := 0 }
  | page :: rest, currentLine =>
    if currentLine + page.lines.length > lineIndex then
      match page.lines.get? (lineIndex - currentLine) with
      | some line =>
        Except.ok { page := page.pageNumber, line := line.lineNumber, column := 1,
                    offset := 0, absoluteOffset := line.startOffset }
      | none => Except.error JsError.undefinedLineAccess
    else findPosGo lineIndex rest (currentLine + page.lines.length)

/-- `AdvancedDiffEngine.findPositionByLineIndex`. -/
def findPositionByLineIndex (doc : DocumentStructure) (lineIndex : Nat) :
    Except JsError DocumentPosition :=
  findPosGo lineIndex doc.pages 0

/-- `findPositionByContent` (the source's simplified stub: ignores the document
and the content). -/
def findPositionByContent (_doc : DocumentStructure) (_content : String)
    (paragraphIndex : Nat) : DocumentPosition :=
  { page := 1, line := paragraphIndex + 1, column := 1, offset := 0, absoluteOffset := 0 }

/-- `getContextBefore` (simplified in the source: always the empty string). -/
def getContextBefore (_doc : DocumentStructure) (_position : DocumentPosition) : String :=
  ""

/-- `getContextAfter` (simplified in the source: always the empty string). -/
def getContextAfter (_doc : DocumentStructure) (_position : DocumentPosition) : String :=
  ""

/-- `getWordContext(text, position, length)`. -/
def getWordContext (text : String) (position length : Int) : String :=
  let start := max 0 (position + (if length < 0 then length else 0))
  let stop := min (text.length : Int) (position + (if length > 0 then length else 0))
  jsSubstring text start stop

/-- `calculateSeverity` (line-level): escalates with line count and length. -/
def calculateSeverity (content : String) : Severity :=
  let length := (jsTrim content).length
  let lineCount := countNewlines content
  if lineCount > 10 || length > 500 then Severity.critical
  else if lineCount > 5 || length > 200 then Severity.high
  else if lineCount > 1 || length > 50 then Severity.medium
  else Severity.low

/-- `calculateWordSeverity`: `medium` for tokens longer than 20, else `low`. -/
def calculateWordSeverity (word : String) : Severity :=
  if word.length > 20 then Severity.medium else Severity.low

/-! ## Line-level differ -/

/-- State of the `lineDiffs.forEach` loop in `detectLineDifferences`. -/
structure LineState where
  diffs : List PreciseDifference
  leftLineIndex : Nat
  rightLineIndex : Nat
  diffIndex : Nat

/-- The difference pushed for an added line segment. -/
def mkLineAdd (rDoc : DocumentStructure) (value : String) (diffIndex : Nat)
    (rightPosition : DocumentPosition) : PreciseDifference :=
  { id := "line-add-" ++ toString diffIndex
    type := DiffType.addition
    severity := calculateSeverity value
    category := Category.text
    description := "新增内容: " ++ jsSubstring value 0 50 ++ "..."
    leftContent := ""
    rightContent := value
    leftPosition := rightPosition -- 使用右侧位置作为参考
    rightPosition := rightPosition
    contextBefore := getContextBefore rDoc rightPosition
    contextAfter := getContextAfter rDoc rightPosition
    similarity := 0
    confidence := 9/10 }

/-- The difference pushed for a removed line segment. -/
def mkLineDel (lDoc : DocumentStructure) (value : String) (diffIndex : Nat)
    (leftPosition : DocumentPosition) : PreciseDifference :=
  { id := "line-del-" ++ toString diffIndex
    type := DiffType.deletion
    severity := calculateSeverity value
    category := Category.text
    description := "删除内容: " ++ jsSubstring value 0 50 ++ "..."
    leftContent := value
    rightContent := ""
    leftPosition := leftPosition
    rightPosition := leftPosition -- 使用左侧位置作为参考
    contextBefore := getContextBefore lDoc leftPosition
    contextAfter := getContextAfter lDoc leftPosition
    similarity := 0
    confidence := 9/10 }

/-- One iteration of the `forEach` in `detectLineDifferences`.  The unchanged
branch calls `this.detectWordLevelChanges`, a method that does not exist on
the class, so it throws a `TypeError`. -/
def lineStep (lDoc rDoc : DocumentStructure) (st : LineState) (part : DiffPart) :
    Except JsError LineState :=
  if part.added then do
    let rightPosition ← findPositionByLineIndex rDoc st.rightLineIndex
    Except.ok { diffs := st.diffs ++ [mkLineAdd rDoc part.value st.diffIndex rightPosition]
                leftLineIndex := st.leftLineIndex
                rightLineIndex := st.rightLineIndex + countNewlines part.value
                diffIndex := st.diffIndex + 1 }
  else if part.removed then do
    let leftPosition ← findPositionByLineIndex lDoc st.leftLineIndex
    Except.ok { diffs := st.diffs ++ [mkLineDel lDoc part.value st.diffIndex leftPosition]
                leftLineIndex := st.leftLineIndex + countNewlines part.value
                rightLineIndex := st.rightLineIndex
                diffIndex := st.diffIndex + 1 }
  else
    -- const wordDiffs = this.detectWordLevelChanges(...): TypeError
    Except.error JsError.missingDetectWordLevelChanges

/-- `AdvancedDiffEngine.detectLineDifferences`. -/
def detectLineDifferences (lDoc rDoc : DocumentStructure) :
    Except JsError (List PreciseDifference) := do
  let lineDiffs := diffLines (extractFullContent lDoc) (extractFullContent rDoc)
  let st ← lineDiffs.foldlM (lineStep lDoc rDoc)
    { diffs := [], leftLineIndex := 0, rightLineIndex := 0, diffIndex := 0 }
  Except.ok st.diffs

/-! ## Word-level differ -/

/-- The difference pushed for an added/removed word run in paragraph `i` at
`forEach` index `index`. -/
def mkWordDiff (lDoc rDoc : DocumentStructure) (i index : Nat) (leftPara rightPara : String)
    (wordIndex : Nat) (isAdded : Bool) (value : String) : PreciseDifference :=
  let position := findPositionByContent (if isAdded then rDoc else lDoc) value i
  { id := "word-" ++ (if isAdded then "add" else "del") ++ "-" ++ toString i
            ++ "-" ++ toString index
    type := if isAdded then DiffType.addition else DiffType.deletion
    severity := calculateWordSeverity value
    category := Category.text
    description := (if isAdded then "新增" else "删除") ++ "词汇: " ++ value
    leftContent := if isAdded then "" else value
    rightContent := if isAdded then value else ""
    leftPosition := position
    rightPosition := position
    contextBefore := getWordContext leftPara (wordIndex : Int) (-10)
    contextAfter := getWordContext leftPara ((wordIndex : Int) + (value.length : Int)) 10
    similarity := calculateWordSimilarity leftPara rightPara
    confidence := 4/5 }

/-- The `wordDiffs.forEach` loop of `detectWordDifferences`, carrying the
`forEach` index and `wordIndex`. -/
def wordPartsGo (lDoc rDoc : DocumentStructure) (i : Nat) (leftPara rightPara : String) :
    List DiffPart → Nat → Nat → List PreciseDifference
  | [], _, _ => []
  | part :: rest, index, wordIndex =>
    (if part.added || part.removed then
      [mkWordDiff lDoc rDoc i index leftPara rightPara wordIndex part.added part.value]
    else []) ++ wordPartsGo lDoc rDoc i leftPara rightPara rest (index + 1)
      (wordIndex + part.value.length)

/-- `AdvancedDiffEngine.detectWordDifferences`: paragraphs are aligned by
index, missing counterparts are the empty string. -/
def detectWordDifferences (lDoc rDoc : DocumentStructure) : List PreciseDifference :=
  let leftParagraphs := extractParagraphs lDoc
  let rightParagraphs := extractParagraphs rDoc
  let maxLength := max leftParagraphs.length rightParagraphs.length
  (List.range maxLength).flatMap (fun i =>
    let leftPara := leftParagraphs.getD i ""
    let rightPara := rightParagraphs.getD i ""
    if leftPara = rightPara then []
    else wordPartsGo lDoc rDoc i leftPara rightPara (diffWords leftPara rightPara) 0 0)

/-! ## Structural differ -/

/-- The document-start position used by structural differences. -/
def docStartPos : DocumentPosition :=
  { page := 1, line := 1, column := 1, offset := 0, absoluteOffset := 0 }

/-- The single page-count difference (emitted when the page counts differ). -/
def mkPageCountDiff (lDoc rDoc : DocumentStructure) : PreciseDifference :=
  { id := "struct-page-count"
    type := DiffType.struct
    severity := Severity.high
    category := Category.struct
    description := "页面数量变化: " ++ toString lDoc.pageCount ++ " → " ++ toString rDoc.pageCount
    leftContent := toString lDoc.pageCount ++ " 页"
    rightContent := toString rDoc.pageCount ++ " 页"
    leftPosition := docStartPos
    rightPosition := docStartPos
    contextBefore := ""
    contextAfter := ""
    similarity := 1/2
    confidence := 1 }

/-- The difference pushed for an added/removed section title run. -/
def mkSectionDiff (sectionIndex : Nat) (isAdded : Bool) (value : String) : PreciseDifference :=
  { id := "struct-section-" ++ toString sectionIndex
    type := if isAdded then DiffType.addition else DiffType.deletion
    severity := Severity.medium
    category := Category.struct
    description := "章节" ++ (if isAdded then "新增" else "删除") ++ ": " ++ value
    leftContent := if isAdded then "" else value
    rightContent := if isAdded then value else ""
    leftPosition := docStartPos
    rightPosition := docStartPos
    contextBefore := ""
    contextAfter := ""
    similarity := 0
    confidence := 9/10 }

/-- The `sectionDiffs.forEach` loop (`sectionIndex` increments only when a
difference is pushed). -/
def sectionPartsGo : List DiffPart → Nat → List PreciseDifference
  | [], _ => []
  | part :: rest, sectionIndex =>
    if part.added || part.removed then
      mkSectionDiff sectionIndex part.added part.value :: sectionPartsGo rest (sectionIndex + 1)
    else sectionPartsGo rest sectionIndex

/-- `AdvancedDiffEngine.detectStructuralDifferences`. -/
def detectStructuralDifferences (lDoc rDoc : DocumentStructure) : List PreciseDifference :=
  (if lDoc.pageCount ≠ rDoc.pageCount then [mkPageCountDiff lDoc rDoc] else [])
    ++ sectionPartsGo
        (diffLines (String.intercalate "\n" (lDoc.sections.map (fun s => s.title)))
          (String.intercalate "\n" (rDoc.sections.map (fun s => s.title)))) 0

/-! ## Optimizer -/

/-- The deduplication predicate of `optimizeDifferences`:
`d.leftContent === diff.leftContent && d.rightContent === diff.rightContent`. -/
def contentEqB (diff d : PreciseDifference) : Bool :=
  decide (d.leftContent = diff.leftContent) && decide (d.rightContent = diff.rightContent)

/-- The dedup stage of `optimizeDifferences`: keep an element exactly when
`findIndex` of its content pair equals its own index. -/
def uniqueDifferences (differences : List PreciseDifference) : List PreciseDifference :=
  ((differences.enum.filter
    (fun ie => differences.findIdx (contentEqB ie.2) == ie.1)).map (fun ie => ie.2))

/-- The sort comparator of `optimizeDifferences` (numeric, lexicographic on
`(leftPosition.page, leftPosition.line, leftPosition.column)`). -/
def comparePositions (a b : PreciseDifference) : Int :=
  if a.leftPosition.page ≠ b.leftPosition.page then
    (a.leftPosition.page : Int) - (b.leftPosition.page : Int)
  else if a.leftPosition.line ≠ b.leftPosition.line then
    (a.leftPosition.line : Int) - (b.leftPosition.line : Int)
  else (a.leftPosition.column : Int) - (b.leftPosition.column : Int)

/-- The (pre)order the comparator induces: `a` may come before `b`. -/
def posLe (a b : PreciseDifference) : Prop :=
  comparePositions a b ≤ 0

instance : DecidableRel posLe := fun a b => Int.decLe (comparePositions a b) 0

/-- `Array.prototype.sort` with a consistent comparator is, per ES2019, the
stable sort by the comparator's order — i.e. insertion sort. -/
def sortDiffs (l : List PreciseDifference) : List PreciseDifference :=
  List.insertionSort posLe l

/-- `AdvancedDiffEngine.optimizeDifferences`: dedup, then stable sort. -/
def optimizeDifferences (differences : List PreciseDifference) : List PreciseDifference :=
  sortDiffs (uniqueDifferences differences)

/-! ## Statistics and summary -/

/-- `pageDistribution.set(page, (pageDistribution.get(page) || 0) + 1)`. -/
def bumpPage : List (Nat × Nat) → Nat → List (Nat × Nat)
  | [], p => [(p, 1)]
  | (q, n) :: rest, p =>
    if q = p then (q, n + 1) :: rest else (q, n) :: bumpPage rest p

/-- `AdvancedDiffEngine.calculateStatistics`. -/
def calculateStatistics (differences : List PreciseDifference)
    (lDoc rDoc : DocumentStructure) : ComparisonStatistics :=
  let totalChars := max lDoc.characterCount rDoc.characterCount
  let changedChars := differences.foldl
    (fun sum diff => sum + max diff.leftContent.length diff.rightContent.length) (0 : ℕ)
  let confidenceSum := differences.foldl
    (fun (sum : ℚ) (diff : PreciseDifference) => sum + diff.confidence) (0 : ℚ)
  { totalDifferences := differences.length
    additions := differences.countP (fun d => d.type = DiffType.addition)
    deletions := differences.countP (fun d => d.type = DiffType.deletion)
    modifications := differences.countP (fun d => d.type = DiffType.modification)
    formatChanges := differences.countP (fun d => d.category = Category.format)
    structureChanges := differences.countP (fun d => d.category = Category.struct)
    critical := differences.countP (fun d => d.severity = Severity.critical)
    high := differences.countP (fun d => d.severity = Severity.high)
    medium := differences.countP (fun d => d.severity = Severity.medium)
    low := differences.countP (fun d => d.severity = Severity.low)
    pageDistribution := differences.foldl (fun m d => bumpPage m d.leftPosition.page) []
    overallSimilarity := jsMax0 (jsDiv ((totalChars : ℚ) - (changedChars : ℚ)) (totalChars : ℚ))
    averageConfidence := jsOr0 (jsDiv confidenceSum (differences.length : ℚ)) }

/-- `AdvancedDiffEngine.generateSummary`. -/
def generateSummary (differences : List PreciseDifference)
    (statistics : ComparisonStatistics) : ComparisonSummary :=
  { majorChanges := ((differences.filter
      (fun d => d.severity = Severity.high ∨ d.severity = Severity.critical)).take 5).map
        (fun d => d.description)
    structuralChanges := (differences.filter
      (fun d => d.category = Category.struct)).map (fun d => d.description)
    formatChanges := (differences.filter
      (fun d => d.category = Category.format)).map (fun d => d.description)
    recommendations :=
      (if jsLtQ statistics.overallSimilarity (1/2) then
        ["文档差异较大，建议仔细审查所有变更"] else [])
      ++ (if statistics.structureChanges > 0 then
        ["检测到结构性变化，请确认文档组织是否符合预期"] else [])
      ++ (if statistics.critical > 0 then
        ["存在关键性差异，需要重点关注"] else []) }

/-- `AdvancedDiffEngine.compareDocuments`: the engine's public entry point. -/
def compareDocuments (leftDoc rightDoc : DocumentStructure) :
    Except JsError ComparisonResult := do
  let lineDifferences ← detectLineDifferences leftDoc rightDoc
  let wordDifferences := detectWordDifferences leftDoc rightDoc
  let structuralDifferences := detectStructuralDifferences leftDoc rightDoc
  let differences := lineDifferences ++ wordDifferences ++ structuralDifferences
  let optimizedDifferences := optimizeDifferences differences
  let statistics := calculateStatistics optimizedDifferences leftDoc rightDoc
  let summary := generateSummary optimizedDifferences statistics
  Except.ok { differences := optimizedDifferences, statistics := statistics, summary := summary }

/-! ## Lemmas: JS `Map` lookup -/

theorem find?_eq_some_of_mem_nodup {κ ν : Type} [DecidableEq κ]
    {l : List (κ × ν)} {k : κ} {v : ν}
    (hmem : (k, v) ∈ l) (hnd : (l.map Prod.fst).Nodup) :
    l.find? (fun e => decide (e.1 = k)) = some (k, v) := by
  induction l with
  | nil => cases hmem
  | cons a t ih =>
    rcases List.mem_cons.mp hmem with h | h
    · cases h
      exact List.find?_cons_of_pos _ (by simp)
    · have hk : a.1 ≠ k := by
        intro he
        have hkm : k ∈ t.map Prod.fst := List.mem_map.mpr ⟨(k, v), h, rfl⟩
        simp only [List.map_cons, List.nodup_cons] at hnd
        exact hnd.1 (he ▸ hkm)
      rw [List.find?_cons_of_neg _ (by simpa using hk)]
      exact ih h (by simpa using (List.nodup_cons.mp (by simpa using hnd)).2)

theorem mapGet_eq_some_of_mem_nodup {κ ν : Type} [DecidableEq κ]
    {l : List (κ × ν)} {k : κ} {v : ν}
    (hmem : (k, v) ∈ l) (hnd : (l.map Prod.fst).Nodup) :
    mapGet l k = some v := by
  have hnd' : (l.reverse.map Prod.fst).Nodup := by
    rw [List.map_reverse]
    exact List.nodup_reverse.mpr hnd
  unfold mapGet
  rw [find?_eq_some_of_mem_nodup (List.mem_reverse.mpr hmem) hnd']
  rfl

/-! ## Lemmas: structure of the offset entries of a built index -/

theorem lineEntries_map_fst (pg : Nat) (line : DocumentLine) :
    (lineEntries pg line).map Prod.fst
      = List.range' line.startOffset (line.endOffset + 1 - line.startOffset) := by
  simp [lineEntries, List.range'_eq_map_range, Function.comp]

theorem splitLinesCh_ne_nil (cs : List Char) : splitLinesCh cs ≠ [] := by
  induction cs with
  | nil => simp [splitLinesCh]
  | cons c rest ih =>
    unfold splitLinesCh
    by_cases h : c = '\n'
    · simp [h]
    · simp only [if_neg h]
      cases hs : splitLinesCh rest with
      | nil => simp
      | cons p ps => simp

theorem splitLinesCh_sum (cs : List Char) :
    ((splitLinesCh cs).map (fun p => p.length + 1)).sum = cs.length + 1 := by
  induction cs with
  | nil => simp [splitLinesCh]
  | cons c rest ih =>
    unfold splitLinesCh
    by_cases h : c = '\n'
    · simp only [if_pos h, List.map_cons, List.sum_cons, ih]
      simp; omega
    · simp only [if_neg h]
      cases hs : splitLinesCh rest with
      | nil => exact absurd hs (splitLinesCh_ne_nil rest)
      | cons p ps =>
        rw [hs] at ih
        simp only [List.map_cons, List.sum_cons, List.length_cons] at ih ⊢
        omega

theorem jsSplitNl_sum (t : String) :
    ((jsSplitNl t).map (fun p => p.length + 1)).sum = t.length + 1 := by
  have h := splitLinesCh_sum t.data
  rw [jsSplitNl, List.map_map]
  have he : ((fun p => p.length + 1) ∘ fun l => String.mk l)
      = fun (p : List Char) => p.length + 1 := by
    funext p
    rfl
  rw [he, h]
  rfl

/-- The offsets covered by the lines of one page, in write order. -/
def linesOffsets (pg : Nat) (lines : List DocumentLine) : List Nat :=
  (lines.flatMap (lineEntries pg)).map Prod.fst

theorem range'_glue (s m n : Nat) :
    List.range' s m ++ List.range' (s + m) n = List.range' s (m + n) := by
  rw [List.range'_append_1, Nat.add_comm]

theorem buildLinesGo_offsets (pg : Nat) (pieces : List String) (idx cur : Nat) :
    ((buildLinesGo pg pieces idx cur).flatMap (lineEntries pg)).map Prod.fst
      = List.range' cur ((pieces.map (fun p => p.length + 1)).sum) := by
  induction pieces generalizing idx cur with
  | nil => simp [buildLinesGo]
  | cons lc rest ih =>
    simp only [buildLinesGo, List.flatMap_cons, List.map_append, List.map_cons, List.sum_cons,
      lineEntries_map_fst, ih]
    rw [show cur + lc.length + 1 - cur = lc.length + 1 from by omega]
    have h2 := range'_glue cur (lc.length + 1) ((rest.map (fun p => p.length + 1)).sum)
    rw [show cur + (lc.length + 1) = cur + lc.length + 1 from by omega] at h2
    exact h2

theorem offsetEntries_buildPagesGo (texts : List String) (n cur : Nat) :
    (offsetEntries (buildPagesGo texts n cur)).map Prod.fst
      = List.range' cur (totalOffsets texts) := by
  induction texts generalizing n cur with
  | nil => simp [offsetEntries, buildPagesGo, totalOffsets]
  | cons t rest ih =>
    have ihr := ih (n + 1) (cur + t.length + 1)
    have hline := buildLinesGo_offsets n (jsSplitNl t) 0 cur
    simp only [offsetEntries] at ihr
    simp only [offsetEntries, buildPagesGo, List.flatMap_cons, List.map_append, totalOffsets,
      List.map_cons, List.sum_cons, buildLineStructure]
    rw [hline, jsSplitNl_sum, ihr]
    have h2 := range'_glue cur (t.length + 1) (totalOffsets rest)
    rw [show cur + (t.length + 1) = cur + t.length + 1 from by omega] at h2
    simp only [totalOffsets] at h2
    exact h2

theorem offsetEntries_buildPages_fst (texts : List String) :
    (offsetEntries (buildPages texts)).map Prod.fst = List.range' 0 (totalOffsets texts) :=
  offsetEntries_buildPagesGo texts 1 0

/-! ## Lemmas: the inverse-map keys of a built index are pairwise distinct -/

theorem lineKeys_eq (pg : Nat) (line : DocumentLine) :
    (lineEntries pg line).map (fun e => posKey e.2)
      = (List.range (line.endOffset + 1 - line.startOffset)).map
          (fun j => (pg, line.lineNumber, j + 1)) := by
  simp [lineEntries, posKey, List.map_map, Function.comp]

theorem lineKeys_nodup (pg : Nat) (line : DocumentLine) :
    ((lineEntries pg line).map (fun e => posKey e.2)).Nodup := by
  rw [lineKeys_eq]
  refine List.Nodup.map ?_ (List.nodup_range _)
  intro a b hab
  simpa using hab

theorem mem_lineKeys (pg : Nat) (line : DocumentLine) (x : Nat × Nat × Nat)
    (hx : x ∈ (lineEntries pg line).map (fun e => posKey e.2)) :
    x.1 = pg ∧ x.2.1 = line.lineNumber := by
  rw [lineKeys_eq] at hx
  rcases List.mem_map.mp hx with ⟨j, _, rfl⟩
  exact ⟨rfl, rfl⟩

/-- The keys one page contributes. -/
def pageKeys (pg : DocumentPage) : List (Nat × Nat × Nat) :=
  pg.lines.flatMap (fun line => (lineEntries pg.pageNumber line).map (fun e => posKey e.2))

theorem mem_pageKeys (pg : DocumentPage) (x : Nat × Nat × Nat) (hx : x ∈ pageKeys pg) :
    x.1 = pg.pageNumber := by
  rcases List.mem_flatMap.mp hx with ⟨line, _, hxl⟩
  exact (mem_lineKeys _ _ _ hxl).1

theorem pageKeys_nodup (pg : DocumentPage)
    (hl : pg.lines.Pairwise (fun a b => a.lineNumber ≠ b.lineNumber)) :
    (pageKeys pg).Nodup := by
  rw [pageKeys, List.nodup_flatMap]
  constructor
  · intro line _
    exact lineKeys_nodup _ _
  · refine hl.imp ?_
    intro a b hab x hxa hxb
    have h1 := (mem_lineKeys _ _ _ hxa).2
    have h2 := (mem_lineKeys _ _ _ hxb).2
    exact hab (h1 ▸ h2 ▸ rfl)

theorem buildLinesGo_lineNumber_lb (pg : Nat) (pieces : List String) (idx cur : Nat) :
    ∀ line ∈ buildLinesGo pg pieces idx cur, idx + 1 ≤ line.lineNumber := by
  induction pieces generalizing idx cur with
  | nil => simp [buildLinesGo]
  | cons lc rest ih =>
    intro line hline
    simp only [buildLinesGo, List.mem_cons] at hline
    rcases hline with h | h
    · subst h; simp
    · have := ih (idx + 1) (cur + lc.length + 1) line h
      omega

theorem buildLinesGo_lineNumber_pairwise (pg : Nat) (pieces : List String) (idx cur : Nat) :
    (buildLinesGo pg pieces idx cur).Pairwise (fun a b => a.lineNumber ≠ b.lineNumber) := by
  induction pieces generalizing idx cur with
  | nil => simp [buildLinesGo]
  | cons lc rest ih =>
    simp only [buildLinesGo]
    refine List.Pairwise.cons ?_ (ih _ _)
    intro b hb
    have := buildLinesGo_lineNumber_lb pg rest (idx + 1) (cur + lc.length + 1) b hb
    simp only [ne_eq]
    intro hc
    rw [← hc] at this
    simp at this

theorem buildPagesGo_pageNumber_lb (texts : List String) (n cur : Nat) :
    ∀ pg ∈ buildPagesGo texts n cur, n ≤ pg.pageNumber := by
  induction texts generalizing n cur with
  | nil => simp [buildPagesGo]
  | cons t rest ih =>
    intro pg hpg
    simp only [buildPagesGo, List.mem_cons] at hpg
    rcases hpg with h | h
    · subst h; simp
    · have := ih (n + 1) (cur + t.length + 1) pg h
      omega

theorem buildPagesGo_pageNumber_pairwise (texts : List String) (n cur : Nat) :
    (buildPagesGo texts n cur).Pairwise (fun a b => a.pageNumber ≠ b.pageNumber) := by
  induction texts generalizing n cur with
  | nil => simp [buildPagesGo]
  | cons t rest ih =>
    simp only [buildPagesGo]
    refine List.Pairwise.cons ?_ (ih _ _)
    intro b hb
    have := buildPagesGo_pageNumber_lb rest (n + 1) (cur + t.length + 1) b hb
    simp only [ne_eq]
    intro hc
    rw [← hc] at this
    simp at this

theorem buildPagesGo_lines_pairwise (texts : List String) (n cur : Nat) :
    ∀ pg ∈ buildPagesGo texts n cur,
      pg.lines.Pairwise (fun a b => a.lineNumber ≠ b.lineNumber) := by
  induction texts generalizing n cur with
  | nil => simp [buildPagesGo]
  | cons t rest ih =>
    intro pg hpg
    simp only [buildPagesGo, List.mem_cons] at hpg
    rcases hpg with h | h
    · subst h
      exact buildLinesGo_lineNumber_pairwise _ _ _ _
    · exact ih (n + 1) (cur + t.length + 1) pg h

theorem posKeys_nodup (texts : List String) :
    ((offsetEntries (buildPages texts)).map (fun e => posKey e.2)).Nodup := by
  have he : (offsetEntries (buildPages texts)).map (fun e => posKey e.2)
      = (buildPages texts).flatMap pageKeys := by
    simp only [offsetEntries, pageKeys, List.map_flatMap]
    rfl
  rw [he, List.nodup_flatMap]
  constructor
  · intro pg hpg
    exact pageKeys_nodup pg (buildPagesGo_lines_pairwise texts 1 0 pg hpg)
  · refine (buildPagesGo_pageNumber_pairwise texts 1 0).imp ?_
    intro a b hab x hxa hxb
    have h1 := mem_pageKeys a x hxa
    have h2 := mem_pageKeys b x hxb
    exact hab (h1 ▸ h2 ▸ rfl)

/-! ## Claim C2: offset ↔ position round trip -/

/-- **C2** — For every valid absolute offset `o` of a document built from the
given page texts, the position index maps `o` to exactly one
`DocumentPosition`, and looking that position's `(page, line, column)` key up
in the inverse map yields `o` again: `offsetAt(positionAt(o)) == o`. -/
theorem positionIndex_roundTrip (texts : List String) (o : Nat)
    (h : o < totalOffsets texts) :
    ∃ p, positionAt (buildPositionIndex (buildPages texts)) o = some p ∧
      offsetAt (buildPositionIndex (buildPages texts)) (posKey p) = some o := by
  have hfst := offsetEntries_buildPages_fst texts
  have hnd : ((offsetEntries (buildPages texts)).map Prod.fst).Nodup := by
    rw [hfst]
    exact List.nodup_range' _ _
  have hmemo : o ∈ (offsetEntries (buildPages texts)).map Prod.fst := by
    rw [hfst]
    exact List.mem_range'_1.mpr ⟨Nat.zero_le o, by omega⟩
  rcases List.mem_map.mp hmemo with ⟨e, hmem, he⟩
  obtain ⟨o', p⟩ := e
  cases he
  refine ⟨p, ?_, ?_⟩
  · exact mapGet_eq_some_of_mem_nodup hmem hnd
  · have hmem2 : (posKey p, o') ∈
        (offsetEntries (buildPages texts)).map (fun e => (posKey e.2, e.1)) :=
      List.mem_map.mpr ⟨(o', p), hmem, rfl⟩
    refine mapGet_eq_some_of_mem_nodup hmem2 ?_
    have hk : ((offsetEntries (buildPages texts)).map
        (fun e => (posKey e.2, e.1))).map Prod.fst
        = (offsetEntries (buildPages texts)).map (fun e => posKey e.2) := by
      rw [List.map_map]
      rfl
    have hproj : (buildPositionIndex (buildPages texts)).positionToOffset
        = (offsetEntries (buildPages texts)).map (fun e => (posKey e.2, e.1)) := rfl
    rw [hproj, hk]
    exact posKeys_nodup texts

/-- Witness for C2 at the concrete document `["ab\nc"]`, offset `2`. -/
theorem positionIndex_roundTrip_witness :
    2 < totalOffsets ["ab\nc"] ∧
    ∃ p, positionAt (buildPositionIndex (buildPages ["ab\nc"])) 2 = some p ∧
      offsetAt (buildPositionIndex (buildPages ["ab\nc"])) (posKey p) = some 2 :=
  ⟨by decide, positionIndex_roundTrip ["ab\nc"] 2 (by decide)⟩

/-! ## Concrete sample documents -/

/-- A parsed one-page text document with content `"a"`. -/
def sampleDocA : DocumentStructure :=
  { pageCount := 1, lineCount := 1, characterCount := 1,
    pages := buildPages ["a"], sections := [] }

/-- A parsed one-page text document with content `"b"`. -/
def sampleDocB : DocumentStructure :=
  { pageCount := 1, lineCount := 1, characterCount := 1,
    pages := buildPages ["b"], sections := [] }

/-- The document the parser produces for the empty text file `""`. -/
def emptyTextDocument : DocumentStructure :=
  { pageCount := 1, lineCount := 1, characterCount := 0,
    pages := buildPages [""], sections := [] }

/-- Total number of lines of a document. -/
def totalLines (doc : DocumentStructure) : Nat :=
  (doc.pages.map (fun pg => pg.lines.length)).sum

/-! ## Claim C3: out-of-range position queries -/

/-- **C3 counterexample** — An out-of-bounds line-index query (index 5 on a
one-line document) does not fail: it silently returns the default position
(page 1, line 1, column 1, absoluteOffset 0), exactly what the claim says
never happens. -/
theorem findPosition_outOfRange_counterexample :
    findPositionByLineIndex sampleDocA 5 = Except.ok docStartPos := by
  rfl

theorem findPosGo_default (lineIndex : Nat) (pages : List DocumentPage) (currentLine : Nat)
    (h : currentLine + (pages.map (fun pg => pg.lines.length)).sum ≤ lineIndex) :
    findPosGo lineIndex pages currentLine = Except.ok docStartPos := by
  induction pages generalizing currentLine with
  | nil => rfl
  | cons page rest ih =>
    simp only [List.map_cons, List.sum_cons] at h
    rw [findPosGo]
    rw [if_neg (by omega)]
    exact ih (currentLine + page.lines.length) (by omega)

/-- **C3 (amended)** — A line-index query at or beyond the document's total
line count does not raise: it returns the default document-start position
(page 1, line 1, column 1, absoluteOffset 0). -/
theorem findPosition_outOfRange_default (doc : DocumentStructure) (lineIndex : Nat)
    (h : totalLines doc ≤ lineIndex) :
    findPositionByLineIndex doc lineIndex = Except.ok docStartPos :=
  findPosGo_default lineIndex doc.pages 0 (by simpa [totalLines] using h)

/-- Witness for the amended C3 at the empty text document, line index 1. -/
theorem findPosition_outOfRange_default_witness :
    totalLines emptyTextDocument ≤ 1 ∧
    findPositionByLineIndex emptyTextDocument 1 = Except.ok docStartPos :=
  ⟨by decide, findPosition_outOfRange_default emptyTextDocument 1 (by decide)⟩

/-! ## Claims C1 and C4: comparisons that hit the missing method -/

theorem detectLineDifferences_self (doc : DocumentStructure) :
    detectLineDifferences doc doc = Except.error JsError.missingDetectWordLevelChanges := by
  have hparts : diffLines (extractFullContent doc) (extractFullContent doc)
      = [{ value := String.join (lineTokenize (extractFullContent doc)),
           count := (lineTokenize (extractFullContent doc)).length,
           added := false, removed := false }] := by
    simp [diffLines, jsdiffCore]
  simp [detectLineDifferences, hparts, List.foldlM, lineStep, Bind.bind, Except.bind]

/-- **C1** — Comparing any document against itself does not return a result at
all: the line diff of two equal contents is a single unchanged segment, whose
branch calls the nonexistent method `detectWordLevelChanges` and therefore
throws a `TypeError` instead of producing `differences = []` with
`overallSimilarity = 1.0`. -/
theorem compare_identical_raises (doc : DocumentStructure) :
    compareDocuments doc doc = Except.error JsError.missingDetectWordLevelChanges := by
  simp [compareDocuments, detectLineDifferences_self, Bind.bind, Except.bind]

/-- **C4** — Comparing two empty documents does not return the degenerate
result the claim describes: the identity fast path of the line diff yields an
unchanged segment even for empty inputs, so `compareDocuments` throws the
missing-method `TypeError`; moreover the overall-similarity divisor is not
guarded, so `calculateStatistics` on zero differences and zero characters
yields `NaN` (`(0 - 0) / 0`), not `1.0` (average confidence alone is guarded
by `|| 0` and is `0`). -/
theorem compare_bothEmpty_behavior :
    compareDocuments emptyTextDocument emptyTextDocument
        = Except.error JsError.missingDetectWordLevelChanges ∧
    (calculateStatistics [] emptyTextDocument emptyTextDocument).overallSimilarity
        = JsNum.nan ∧
    (calculateStatistics [] emptyTextDocument emptyTextDocument).averageConfidence
        = JsNum.num 0 :=
  ⟨rfl, by norm_num [calculateStatistics, jsDiv, jsMax0, emptyTextDocument],
    by norm_num [calculateStatistics, jsDiv, jsOr0, emptyTextDocument]⟩

/-! ## Claim C5: the page-count structural difference -/

theorem sectionPartsGo_severity (parts : List DiffPart) (k : Nat) :
    ∀ d ∈ sectionPartsGo parts k, d.severity = Severity.medium := by
  induction parts generalizing k with
  | nil => simp [sectionPartsGo]
  | cons part rest ih =>
    intro d hd
    rw [sectionPartsGo] at hd
    by_cases hp : (part.added || part.removed) = true
    · rw [if_pos hp] at hd
      rcases List.mem_cons.mp hd with h | h
      · subst h
        rfl
      · exact ih _ d h
    · rw [if_neg hp] at hd
      exact ih _ d hd

/-- **C5** — For every pair of documents, the structural differ emits exactly
one `structure`-category, `high`-severity difference — the page-count record
(confidence `1.0`, positioned at page 1, line 1, describing the old and new
page counts) — iff the two page counts differ, and none otherwise: the
section-title differences it also emits all have severity `medium`. -/
theorem structural_pageCount_difference (lDoc rDoc : DocumentStructure) :
    (detectStructuralDifferences lDoc rDoc).filter
        (fun d => decide (d.category = Category.struct)
          && decide (d.severity = Severity.high))
      = if lDoc.pageCount ≠ rDoc.pageCount then [mkPageCountDiff lDoc rDoc] else [] := by
  rw [detectStructuralDifferences, List.filter_append]
  have h2 : (sectionPartsGo
      (diffLines (String.intercalate "\n" (lDoc.sections.map (fun s => s.title)))
        (String.intercalate "\n" (rDoc.sections.map (fun s => s.title)))) 0).filter
        (fun d => decide (d.category = Category.struct)
          && decide (d.severity = Severity.high)) = [] := by
    refine List.filter_eq_nil_iff.mpr ?_
    intro d hd
    have := sectionPartsGo_severity _ _ d hd
    simp [this]
  rw [h2, List.append_nil]
  by_cases h : lDoc.pageCount = rDoc.pageCount
  · simp [h]
  · simp only [ne_eq, h, not_false_eq_true, if_pos]
    simp [mkPageCountDiff]

/-! ## Claim C6: content-based deduplication, first occurrence wins -/

/-- The deduplication rule as the specification words it: two differences are
duplicates exactly when both `leftContent` and `rightContent` agree; the first
occurrence is kept and every later duplicate is dropped. -/
def dedupFirstWins : List PreciseDifference → List PreciseDifference
  | [] => []
  | d :: rest => d :: dedupFirstWins (rest.filter (fun e => !contentEqB d e))
  termination_by l => l.length
  decreasing_by
    simp only [List.length_cons]
    exact Nat.lt_succ_of_le (List.length_filter_le _ _)

theorem contentEqB_self (d : PreciseDifference) : contentEqB d d = true := by
  simp [contentEqB]

theorem contentEqB_comm (a b : PreciseDifference) : contentEqB a b = contentEqB b a := by
  unfold contentEqB
  congr 1
  · exact decide_eq_decide.mpr eq_comm
  · exact decide_eq_decide.mpr eq_comm

theorem contentEqB_true_iff {diff d : PreciseDifference} :
    contentEqB diff d = true
      ↔ d.leftContent = diff.leftContent ∧ d.rightContent = diff.rightContent := by
  simp [contentEqB]

theorem enumFrom_succ_eq_map {α : Type} (l : List α) (n : Nat) :
    l.enumFrom (n + 1) = (l.enumFrom n).map (fun p => (p.1 + 1, p.2)) := by
  induction l generalizing n with
  | nil => rfl
  | cons a t ih =>
    simp only [List.enumFrom_cons, List.map_cons]
    rw [ih (n + 1)]

theorem uniqueDifferences_nil : uniqueDifferences [] = [] := rfl

theorem uniqueDifferences_cons (d : PreciseDifference) (t : List PreciseDifference) :
    uniqueDifferences (d :: t)
      = d :: ((t.enum.filter (fun ie => !contentEqB ie.2 d
            && (t.findIdx (contentEqB ie.2) == ie.1))).map (fun ie => ie.2)) := by
  unfold uniqueDifferences
  rw [List.enum_cons, show (1 : Nat) = 0 + 1 from rfl, enumFrom_succ_eq_map, List.filter_cons]
  have hhead : (List.findIdx (contentEqB d) (d :: t) == (0 : Nat)) = true := by
    rw [List.findIdx_cons]
    simp [contentEqB_self]
  rw [if_pos hhead, List.map_cons]
  congr 1
  rw [List.filter_map, List.map_map]
  have hfun : ((fun ie : Nat × PreciseDifference => ie.2)
        ∘ (fun p : Nat × PreciseDifference => (p.1 + 1, p.2)))
      = (fun ie : Nat × PreciseDifference => ie.2) := by
    funext p
    rfl
  rw [hfun, show (t.enumFrom 0) = t.enum from rfl]
  congr 1
  refine List.filter_congr ?_
  intro ie _
  show (List.findIdx (contentEqB ie.2) (d :: t) == ie.1 + 1)
      = (!contentEqB ie.2 d && (t.findIdx (contentEqB ie.2) == ie.1))
  rw [List.findIdx_cons]
  cases hc : contentEqB ie.2 d with
  | true => simp
  | false => simp

/-- A predicate respects the content pair when it cannot distinguish
differences with equal `leftContent` and `rightContent`. -/
def RespectsPair (ban : PreciseDifference → Bool) : Prop :=
  ∀ e e', e.leftContent = e'.leftContent → e.rightContent = e'.rightContent → ban e = ban e'

theorem respectsPair_contentEqB (x : PreciseDifference) :
    RespectsPair (fun e => contentEqB e x) := by
  intro e e' h1 h2
  show contentEqB e x = contentEqB e' x
  unfold contentEqB
  rw [h1, h2]

theorem respectsPair_or {ban : PreciseDifference → Bool} (hban : RespectsPair ban)
    (x : PreciseDifference) : RespectsPair (fun e => ban e || contentEqB e x) := by
  intro e e' h1 h2
  show (ban e || contentEqB e x) = (ban e' || contentEqB e' x)
  have h3 : contentEqB e x = contentEqB e' x := respectsPair_contentEqB x e e' h1 h2
  rw [hban e e' h1 h2, h3]

theorem uniq_filter_aux (N : Nat) :
    ∀ (t : List PreciseDifference), t.length ≤ N →
    ∀ (ban : PreciseDifference → Bool), RespectsPair ban →
      ((t.enum.filter (fun ie => !ban ie.2
          && (t.findIdx (contentEqB ie.2) == ie.1))).map (fun ie => ie.2))
        = uniqueDifferences (t.filter (fun e => !ban e)) := by
  induction N with
  | zero =>
    intro t ht ban _
    have : t = [] := List.length_eq_zero.mp (Nat.le_zero.mp ht)
    subst this
    rfl
  | succ N ih =>
    intro t ht ban hban
    cases t with
    | nil => rfl
    | cons x t' =>
      rw [List.enum_cons, show (1 : Nat) = 0 + 1 from rfl, enumFrom_succ_eq_map,
        List.filter_cons]
      have hhead : (!ban x && (List.findIdx (contentEqB x) (x :: t') == (0 : Nat)))
          = !ban x := by
        rw [List.findIdx_cons]
        simp [contentEqB_self]
      rw [hhead]
      have htail : (List.filter ((fun ie : Nat × PreciseDifference => !ban ie.2
            && (List.findIdx (contentEqB ie.2) (x :: t') == ie.1))
              ∘ (fun p : Nat × PreciseDifference => (p.1 + 1, p.2)))
            (t'.enumFrom 0)).map ((fun ie : Nat × PreciseDifference => ie.2)
              ∘ (fun p : Nat × PreciseDifference => (p.1 + 1, p.2)))
          = ((t'.enum.filter (fun ie => !(ban ie.2 || contentEqB ie.2 x)
            && (t'.findIdx (contentEqB ie.2) == ie.1))).map (fun ie => ie.2)) := by
        rw [show (t'.enumFrom 0) = t'.enum from rfl]
        congr 1
        refine List.filter_congr ?_
        intro ie _
        show (!ban ie.2 && (List.findIdx (contentEqB ie.2) (x :: t') == ie.1 + 1))
            = (!(ban ie.2 || contentEqB ie.2 x)
              && (t'.findIdx (contentEqB ie.2) == ie.1))
        rw [List.findIdx_cons, Bool.not_or]
        cases hc : contentEqB ie.2 x with
        | true => simp
        | false => simp [Bool.and_assoc]
      cases hbx : ban x with
      | true =>
        rw [if_neg (by simp : ¬((!(true : Bool)) = true))]
        rw [List.filter_map, List.map_map, htail]
        have hb' : ∀ e, (ban e || contentEqB e x) = ban e := by
          intro e
          cases hbe : ban e with
          | true => simp
          | false =>
            cases hce : contentEqB e x with
            | true =>
              rcases contentEqB_true_iff.mp (contentEqB_comm e x ▸ hce) with ⟨h1, h2⟩
              have := hban x e h1.symm h2.symm
              rw [hbx] at this
              rw [← this] at hbe
              cases hbe
            | false => simp
        have hcong : (fun ie : Nat × PreciseDifference => !(ban ie.2 || contentEqB ie.2 x)
              && (t'.findIdx (contentEqB ie.2) == ie.1))
            = (fun ie : Nat × PreciseDifference => !ban ie.2
              && (t'.findIdx (contentEqB ie.2) == ie.1)) := by
          funext ie
          rw [hb' ie.2]
        rw [hcong, ih t' (by simpa using Nat.le_of_succ_le_succ (by simpa using ht)) ban hban]
        have hfx : (x :: t').filter (fun e => !ban e) = t'.filter (fun e => !ban e) := by
          rw [List.filter_cons, hbx]
          simp
        rw [hfx]
      | false =>
        rw [if_pos (by simp : ((!(false : Bool)) = true))]
        rw [List.map_cons, List.filter_map, List.map_map, htail]
        have hb' : (fun ie : Nat × PreciseDifference => !(ban ie.2 || contentEqB ie.2 x)
              && (t'.findIdx (contentEqB ie.2) == ie.1))
            = (fun ie : Nat × PreciseDifference => !(fun e => ban e || contentEqB e x) ie.2
              && (t'.findIdx (contentEqB ie.2) == ie.1)) := rfl
        rw [hb', ih t' (by simpa using Nat.le_of_succ_le_succ (by simpa using ht))
          (fun e => ban e || contentEqB e x) (respectsPair_or hban x)]
        have hfx : (x :: t').filter (fun e => !ban e)
            = x :: (t'.filter (fun e => !ban e)) := by
          rw [List.filter_cons, hbx]
          simp
        rw [hfx, uniqueDifferences_cons]
        congr 1
        rw [ih (t'.filter (fun e => !ban e))
          (le_trans (List.length_filter_le _ _)
            (Nat.le_of_succ_le_succ (by simpa using ht)))
          (fun e => contentEqB e x) (respectsPair_contentEqB x)]
        congr 1
        rw [List.filter_filter]
        refine List.filter_congr ?_
        intro e _
        rw [Bool.not_or, Bool.and_comm]

theorem dedup_aux2 (N : Nat) :
    ∀ l : List PreciseDifference, l.length ≤ N →
      uniqueDifferences l = dedupFirstWins l := by
  induction N with
  | zero =>
    intro l hl
    have : l = [] := List.length_eq_zero.mp (Nat.le_zero.mp hl)
    subst this
    simp [uniqueDifferences, dedupFirstWins]
  | succ N ih =>
    intro l hl
    cases l with
    | nil => simp [uniqueDifferences, dedupFirstWins]
    | cons d t =>
      rw [uniqueDifferences_cons, dedupFirstWins]
      congr 1
      have haux := uniq_filter_aux N t (Nat.le_of_succ_le_succ (by simpa using hl))
        (fun e => contentEqB e d) (respectsPair_contentEqB d)
      rw [haux, ih (t.filter (fun e => !contentEqB e d))
        (le_trans (List.length_filter_le _ _) (Nat.le_of_succ_le_succ (by simpa using hl)))]
      congr 1
      refine List.filter_congr ?_
      intro e _
      rw [contentEqB_comm d e]

/-- **C6** — The dedup stage of the optimizer treats two differences as
duplicates exactly when both their `leftContent`s and their `rightContent`s
agree, keeping only the first occurrence of each content pair in input order
and dropping every later one, regardless of positions: the `findIndex`-based
filter equals the first-occurrence-wins deduplication. -/
theorem dedup_firstOccurrence (l : List PreciseDifference) :
    uniqueDifferences l = dedupFirstWins l :=
  dedup_aux2 l.length l le_rfl

/-! ## Claim C7: the optimizer's ordering is sorted and stable -/

/-- The sort key of a difference. -/
def sortKey (d : PreciseDifference) : Nat × Nat × Nat :=
  (d.leftPosition.page, d.leftPosition.line, d.leftPosition.column)

/-- Ascending lexicographic order on
`(leftPosition.page, leftPosition.line, leftPosition.column)`. -/
def keyLe (a b : PreciseDifference) : Prop :=
  a.leftPosition.page < b.leftPosition.page
  ∨ (a.leftPosition.page = b.leftPosition.page
    ∧ (a.leftPosition.line < b.leftPosition.line
      ∨ (a.leftPosition.line = b.leftPosition.line
        ∧ a.leftPosition.column ≤ b.leftPosition.column)))

theorem posLe_iff_keyLe (a b : PreciseDifference) : posLe a b ↔ keyLe a b := by
  unfold posLe comparePositions keyLe
  split_ifs with h1 h2 <;> omega

instance : IsTotal PreciseDifference posLe :=
  ⟨fun a b => by
    rw [posLe_iff_keyLe, posLe_iff_keyLe]
    unfold keyLe
    omega⟩

instance : IsTrans PreciseDifference posLe :=
  ⟨fun a b c hab hbc => by
    rw [posLe_iff_keyLe] at *
    unfold keyLe at *
    omega⟩

theorem sortKey_ne_of_not_posLe {a b : PreciseDifference} (h : ¬ posLe a b) :
    sortKey b ≠ sortKey a := by
  rw [posLe_iff_keyLe] at h
  unfold keyLe at h
  unfold sortKey
  intro hk
  simp only [Prod.mk.injEq] at hk
  omega

theorem filter_orderedInsert_key (x : PreciseDifference) (k : Nat × Nat × Nat) :
    ∀ m : List PreciseDifference,
      (List.orderedInsert posLe x m).filter (fun d => decide (sortKey d = k))
        = (x :: m).filter (fun d => decide (sortKey d = k)) := by
  intro m
  induction m with
  | nil => rfl
  | cons y ys ih =>
    rw [List.orderedInsert]
    by_cases hxy : posLe x y
    · rw [if_pos hxy]
    · rw [if_neg hxy]
      have hne := sortKey_ne_of_not_posLe hxy
      by_cases hx : sortKey x = k
      · have hy : sortKey y ≠ k := fun hyk => hne (hyk.trans hx.symm)
        simp [List.filter_cons, hx, hy, ih]
      · by_cases hy : sortKey y = k
        · simp [List.filter_cons, hx, hy, ih]
        · simp [List.filter_cons, hx, hy, ih]

theorem filter_sortDiffs_key (l : List PreciseDifference) (k : Nat × Nat × Nat) :
    (sortDiffs l).filter (fun d => decide (sortKey d = k))
      = l.filter (fun d => decide (sortKey d = k)) := by
  induction l with
  | nil => rfl
  | cons x xs ih =>
    show (List.orderedInsert posLe x (List.insertionSort posLe xs)).filter _ = _
    rw [filter_orderedInsert_key]
    have ih' : (List.insertionSort posLe xs).filter (fun d => decide (sortKey d = k))
        = xs.filter (fun d => decide (sortKey d = k)) := ih
    simp [List.filter_cons, ih']

/-- **C7** — The optimizer's output is sorted ascending by the triple
`(leftPosition.page, leftPosition.line, leftPosition.column)`, and the sort is
stable: restricted to any fixed sort key, the output lists exactly the
deduplicated differences with that key, in their original (insertion) order. -/
theorem optimizer_sorted_stable (l : List PreciseDifference) :
    (optimizeDifferences l).Pairwise keyLe ∧
    ∀ k, (optimizeDifferences l).filter (fun d => decide (sortKey d = k))
      = (uniqueDifferences l).filter (fun d => decide (sortKey d = k)) := by
  constructor
  · have h := List.sorted_insertionSort posLe (uniqueDifferences l)
    exact h.imp (fun hab => (posLe_iff_keyLe _ _).mp hab)
  · intro k
    exact filter_sortDiffs_key (uniqueDifferences l) k

/-! ## Membership lemmas for the detectors and the optimizer -/

theorem uniqueDifferences_subset {d : PreciseDifference} {l : List PreciseDifference}
    (h : d ∈ uniqueDifferences l) : d ∈ l := by
  unfold uniqueDifferences at h
  rcases List.mem_map.mp h with ⟨ie, hie, rfl⟩
  have h1 := (List.mem_filter.mp hie).1
  have h2 : ie.2 ∈ l.enum.map Prod.snd := List.mem_map.mpr ⟨ie, h1, rfl⟩
  rwa [List.enum_map_snd] at h2

theorem mem_optimize {d : PreciseDifference} {l : List PreciseDifference}
    (h : d ∈ optimizeDifferences l) : d ∈ l := by
  unfold optimizeDifferences sortDiffs at h
  exact uniqueDifferences_subset ((List.perm_insertionSort posLe _).mem_iff.mp h)

theorem wordPartsGo_mem (lDoc rDoc : DocumentStructure) (i : Nat) (lp rp : String) :
    ∀ (parts : List DiffPart) (index wordIndex : Nat) (d : PreciseDifference),
      d ∈ wordPartsGo lDoc rDoc i lp rp parts index wordIndex →
      ∃ idx wi isAdded value,
        d = mkWordDiff lDoc rDoc i idx lp rp wi isAdded value := by
  intro parts
  induction parts with
  | nil => intro index wordIndex d h; cases h
  | cons part rest ih =>
    intro index wordIndex d h
    rw [wordPartsGo] at h
    rcases List.mem_append.mp h with h1 | h2
    · by_cases hp : (part.added || part.removed) = true
      · rw [if_pos hp] at h1
        rcases List.mem_singleton.mp h1 with rfl
        exact ⟨index, wordIndex, part.added, part.value, rfl⟩
      · rw [if_neg hp] at h1
        cases h1
    · exact ih _ _ d h2

theorem detectWordDifferences_mem {lDoc rDoc : DocumentStructure} {d : PreciseDifference}
    (h : d ∈ detectWordDifferences lDoc rDoc) :
    ∃ i idx lp rp wi isAdded value,
      d = mkWordDiff lDoc rDoc i idx lp rp wi isAdded value := by
  unfold detectWordDifferences at h
  rcases List.mem_flatMap.mp h with ⟨i, _, hin⟩
  by_cases hp : (extractParagraphs lDoc).getD i "" = (extractParagraphs rDoc).getD i ""
  · rw [if_pos hp] at hin
    cases hin
  · rw [if_neg hp] at hin
    rcases wordPartsGo_mem lDoc rDoc i _ _ _ _ _ d hin with ⟨idx, wi, isAdded, value, rfl⟩
    exact ⟨i, idx, _, _, wi, isAdded, value, rfl⟩

theorem sectionPartsGo_mem : ∀ (parts : List DiffPart) (k : Nat) (d : PreciseDifference),
    d ∈ sectionPartsGo parts k → ∃ j isAdded value, d = mkSectionDiff j isAdded value := by
  intro parts
  induction parts with
  | nil => intro k d h; cases h
  | cons part rest ih =>
    intro k d h
    rw [sectionPartsGo] at h
    by_cases hp : (part.added || part.removed) = true
    · rw [if_pos hp] at h
      rcases List.mem_cons.mp h with rfl | h
      · exact ⟨k, part.added, part.value, rfl⟩
      · exact ih _ d h
    · rw [if_neg hp] at h
      exact ih _ d h

theorem detectStructuralDifferences_mem {lDoc rDoc : DocumentStructure}
    {d : PreciseDifference} (h : d ∈ detectStructuralDifferences lDoc rDoc) :
    d = mkPageCountDiff lDoc rDoc ∨ ∃ j isAdded value, d = mkSectionDiff j isAdded value := by
  unfold detectStructuralDifferences at h
  rcases List.mem_append.mp h with h1 | h2
  · by_cases hp : lDoc.pageCount ≠ rDoc.pageCount
    · rw [if_pos hp] at h1
      exact Or.inl (List.mem_singleton.mp h1)
    · rw [if_neg hp] at h1
      cases h1
  · exact Or.inr (sectionPartsGo_mem _ _ d h2)

/-! ## Claim C10: word-level severities -/

/-- **C10** — Every difference the word-level differ emits has severity `low`
or `medium` — `medium` exactly when the changed token run (its `leftContent`
or `rightContent`, the other being empty) is longer than 20 characters — and
never `high` or `critical`. -/
theorem word_severity_low_medium (lDoc rDoc : DocumentStructure) (d : PreciseDifference)
    (h : d ∈ detectWordDifferences lDoc rDoc) :
    (d.severity = Severity.low ∨ d.severity = Severity.medium) ∧
    (d.severity = Severity.medium ↔ 20 < d.leftContent.length + d.rightContent.length) := by
  rcases detectWordDifferences_mem h with ⟨i, idx, lp, rp, wi, isAdded, value, rfl⟩
  unfold mkWordDiff calculateWordSeverity
  cases isAdded <;> by_cases hv : value.length > 20 <;> simp [hv]


/-- Witness for C10 at the concrete documents `"a"` and `"b"` (their word diff
is nonempty; the theorem applies to its first element). -/
theorem word_severity_low_medium_witness :
    ∃ d, d ∈ detectWordDifferences sampleDocA sampleDocB ∧
      ((d.severity = Severity.low ∨ d.severity = Severity.medium) ∧
       (d.severity = Severity.medium
         ↔ 20 < d.leftContent.length + d.rightContent.length)) := by
  obtain ⟨d, rest, hlist⟩ :
      ∃ d rest, detectWordDifferences sampleDocA sampleDocB = d :: rest := ⟨_, _, rfl⟩
  have hm : d ∈ detectWordDifferences sampleDocA sampleDocB := by
    rw [hlist]
    exact List.mem_cons_self _ _
  exact ⟨d, hm, word_severity_low_medium sampleDocA sampleDocB d hm⟩

/-! ## The line-level fold: invariants of the `.ok` case -/

theorem lineStep_ok {lDoc rDoc : DocumentStructure} {st : LineState} {part : DiffPart}
    {st' : LineState} (h : lineStep lDoc rDoc st part = Except.ok st') :
    (∃ pos, st'.diffs = st.diffs ++ [mkLineAdd rDoc part.value st.diffIndex pos])
    ∨ (∃ pos, st'.diffs = st.diffs ++ [mkLineDel lDoc part.value st.diffIndex pos]) := by
  unfold lineStep at h
  by_cases ha : part.added = true
  · rw [if_pos ha] at h
    cases hf : findPositionByLineIndex rDoc st.rightLineIndex with
    | error e => rw [hf] at h; cases h
    | ok pos =>
      rw [hf] at h
      refine Or.inl ⟨pos, ?_⟩
      cases h
      rfl
  · rw [if_neg ha] at h
    by_cases hr : part.removed = true
    · rw [if_pos hr] at h
      cases hf : findPositionByLineIndex lDoc st.leftLineIndex with
      | error e => rw [hf] at h; cases h
      | ok pos =>
        rw [hf] at h
        refine Or.inr ⟨pos, ?_⟩
        cases h
        rfl
    · rw [if_neg hr] at h
      cases h

theorem lineStep_not_unchanged {lDoc rDoc : DocumentStructure} {st : LineState}
    {part : DiffPart} {st' : LineState} (h : lineStep lDoc rDoc st part = Except.ok st')
    (ha : part.added = false) (hr : part.removed = false) : False := by
  unfold lineStep at h
  rw [ha, hr] at h
  simp at h

theorem lineFold_invariant (lDoc rDoc : DocumentStructure) (P : PreciseDifference → Prop) :
    ∀ (parts : List DiffPart) (st st' : LineState),
      (∀ part ∈ parts, ∀ idx pos, P (mkLineAdd rDoc part.value idx pos)
        ∧ P (mkLineDel lDoc part.value idx pos)) →
      (∀ d ∈ st.diffs, P d) →
      parts.foldlM (lineStep lDoc rDoc) st = Except.ok st' →
      ∀ d ∈ st'.diffs, P d := by
  intro parts
  induction parts with
  | nil =>
    intro st st' _ hst h
    cases h
    exact hst
  | cons part rest ih =>
    intro st st' hparts hst h
    rw [List.foldlM_cons] at h
    cases hstep : lineStep lDoc rDoc st part with
    | error e =>
      rw [hstep] at h
      cases h
    | ok st1 =>
      rw [hstep] at h
      refine ih st1 st' (fun q hq => hparts q (List.mem_cons_of_mem _ hq)) ?_ h
      intro d hd
      rcases lineStep_ok hstep with ⟨pos, hdiffs⟩ | ⟨pos, hdiffs⟩
      · rw [hdiffs] at hd
        rcases List.mem_append.mp hd with h1 | h2
        · exact hst d h1
        · rcases List.mem_singleton.mp h2 with rfl
          exact (hparts part (List.mem_cons_self _ _) st.diffIndex pos).1
      · rw [hdiffs] at hd
        rcases List.mem_append.mp hd with h1 | h2
        · exact hst d h1
        · rcases List.mem_singleton.mp h2 with rfl
          exact (hparts part (List.mem_cons_self _ _) st.diffIndex pos).2

theorem lineFold_length (lDoc rDoc : DocumentStructure) :
    ∀ (parts : List DiffPart) (st st' : LineState),
      parts.foldlM (lineStep lDoc rDoc) st = Except.ok st' →
      st'.diffs.length = st.diffs.length + parts.length := by
  intro parts
  induction parts with
  | nil =>
    intro st st' h
    cases h
    simp
  | cons part rest ih =>
    intro st st' h
    rw [List.foldlM_cons] at h
    cases hstep : lineStep lDoc rDoc st part with
    | error e => rw [hstep] at h; cases h
    | ok st1 =>
      rw [hstep] at h
      have h1 := ih st1 st' h
      have h2 : st1.diffs.length = st.diffs.length + 1 := by
        rcases lineStep_ok hstep with ⟨pos, hdiffs⟩ | ⟨pos, hdiffs⟩ <;>
          simp [hdiffs]
      rw [h1, h2, List.length_cons]
      omega

theorem detectLineDifferences_ok_invariant {lDoc rDoc : DocumentStructure}
    {ds : List PreciseDifference} (P : PreciseDifference → Prop)
    (h : detectLineDifferences lDoc rDoc = Except.ok ds)
    (hparts : ∀ part ∈ diffLines (extractFullContent lDoc) (extractFullContent rDoc),
      ∀ idx pos, P (mkLineAdd rDoc part.value idx pos)
        ∧ P (mkLineDel lDoc part.value idx pos)) :
    ∀ d ∈ ds, P d := by
  cases hfold : (diffLines (extractFullContent lDoc) (extractFullContent rDoc)).foldlM
      (lineStep lDoc rDoc)
      { diffs := [], leftLineIndex := 0, rightLineIndex := 0, diffIndex := 0 } with
  | error e =>
    exfalso
    simp only [detectLineDifferences, hfold, Bind.bind, Except.bind] at h
    cases h
  | ok st =>
    simp only [detectLineDifferences, hfold, Bind.bind, Except.bind, Except.ok.injEq] at h
    subst h
    exact lineFold_invariant lDoc rDoc P _ _ _ hparts (by simp) hfold

/-- Destructuring a successful comparison: the line stage succeeded and the
result's fields are computed from the three detectors' concatenated output. -/
theorem compareDocuments_ok {lDoc rDoc : DocumentStructure} {res : ComparisonResult}
    (h : compareDocuments lDoc rDoc = Except.ok res) :
    ∃ ld, detectLineDifferences lDoc rDoc = Except.ok ld ∧
      res.differences = optimizeDifferences
        (ld ++ detectWordDifferences lDoc rDoc ++ detectStructuralDifferences lDoc rDoc) ∧
      res.statistics = calculateStatistics
        (optimizeDifferences
          (ld ++ detectWordDifferences lDoc rDoc ++ detectStructuralDifferences lDoc rDoc))
        lDoc rDoc := by
  cases hld : detectLineDifferences lDoc rDoc with
  | error e =>
    exfalso
    simp only [compareDocuments, hld, Bind.bind, Except.bind] at h
    cases h
  | ok ld =>
    refine ⟨ld, rfl, ?_⟩
    simp only [compareDocuments, hld, Bind.bind, Except.bind, Except.ok.injEq] at h
    subst h
    exact ⟨rfl, rfl⟩

/-! ## Claim C9: leftPosition equals rightPosition on every emitted difference -/

/-- **C9** — Every difference in a returned comparison result has
`leftPosition` equal to `rightPosition` field-for-field: line additions copy
the right-side position, line deletions the left-side position, word
differences use one position for both sides, and structural differences use
the fixed document-start position. -/
theorem positions_equal (lDoc rDoc : DocumentStructure) (res : ComparisonResult)
    (h : compareDocuments lDoc rDoc = Except.ok res) :
    ∀ d ∈ res.differences, d.leftPosition = d.rightPosition := by
  obtain ⟨ld, hld, hdiffs, _⟩ := compareDocuments_ok h
  intro d hd
  rw [hdiffs] at hd
  have hmem := mem_optimize hd
  rcases List.mem_append.mp hmem with h1 | hstruct
  · rcases List.mem_append.mp h1 with hline | hword
    · refine detectLineDifferences_ok_invariant
        (fun d => d.leftPosition = d.rightPosition) hld ?_ d hline
      intro part _ idx pos
      exact ⟨rfl, rfl⟩
    · rcases detectWordDifferences_mem hword with ⟨i, idx, lp, rp, wi, isAdded, value, rfl⟩
      rfl
  · rcases detectStructuralDifferences_mem hstruct with rfl | ⟨j, isAdded, value, rfl⟩
    · rfl
    · rfl

/-- Witness for C9 at the concrete documents `"a"` and `"b"` (whose comparison
succeeds). -/
theorem positions_equal_witness :
    ∃ res, compareDocuments sampleDocA sampleDocB = Except.ok res ∧
      ∀ d ∈ res.differences, d.leftPosition = d.rightPosition := by
  obtain ⟨res, hres⟩ :
      ∃ res, compareDocuments sampleDocA sampleDocB = Except.ok res := ⟨_, rfl⟩
  exact ⟨res, hres, positions_equal sampleDocA sampleDocB res hres⟩

/-! ## Bounds on the Levenshtein DP and word similarity -/

theorem levGo_length (c2 : Char) :
    ∀ (as : List Char) (prem : List Nat) (qp : Nat),
      (levGo c2 as prem qp).length = min as.length prem.length := by
  intro as
  induction as with
  | nil => intro prem qp; simp [levGo]
  | cons a as ih =>
    intro prem qp
    cases prem with
    | nil => simp [levGo]
    | cons pd ps =>
      rw [levGo]
      simp only [List.length_cons, ih]
      omega

theorem levGo_bound (c2 : Char) :
    ∀ (as : List Char) (prem : List Nat) (qp : Nat) (i jbase : Nat),
      (∀ (idx : Nat) (h : idx < prem.length), prem.get ⟨idx, h⟩ ≤ max (i - 1) (jbase + idx)) →
      qp ≤ max i jbase →
      ∀ (idx : Nat) (h : idx < (levGo c2 as prem qp).length),
        (levGo c2 as prem qp).get ⟨idx, h⟩ ≤ max i (jbase + idx + 1) := by
  intro as
  induction as with
  | nil => intro prem qp i jbase _ _ idx h; simp [levGo] at h
  | cons a as ih =>
    intro prem qp i jbase hprem hqp idx h
    cases prem with
    | nil => simp [levGo] at h
    | cons pd ps =>
      have hpd : pd ≤ max (i - 1) jbase := by
        have := hprem 0 (by simp)
        simpa using this
      have hq : (if a = c2 then pd else min (min pd qp) (ps.headD 0) + 1)
          ≤ max i (jbase + 1) := by
        by_cases hac : a = c2
        · rw [if_pos hac]
          refine le_trans hpd ?_
          omega
        · rw [if_neg hac]
          have : min (min pd qp) (ps.headD 0) ≤ min pd qp := min_le_left _ _
          have h2 : min pd qp ≤ pd := min_le_left _ _
          omega
      simp only [levGo] at h ⊢
      cases idx with
      | zero =>
        simpa using hq
      | succ idx' =>
        simp only [List.get_cons_succ]
        have hrec := ih ps (if a = c2 then pd else min (min pd qp) (ps.headD 0) + 1)
          i (jbase + 1) ?_ hq idx' (by simpa using h)
        · refine le_trans hrec ?_
          omega
        · intro k hk
          have := hprem (k + 1) (by simpa using hk)
          simp only [List.get_cons_succ] at this
          refine le_trans this ?_
          omega

/-- Every entry of the final DP row is at most `max` of its coordinates; in
particular the returned distance is at most the longer length. -/
theorem levenshteinDistance_le (str1 str2 : String) :
    levenshteinDistance str1 str2 ≤ max str2.length str1.length := by
  unfold levenshteinDistance
  have hinv : ∀ (cs : List Char) (row : List Nat) (i : Nat),
      row.length = str1.data.length + 1 →
      (∀ (idx : Nat) (h : idx < row.length), row.get ⟨idx, h⟩ ≤ max i idx) →
      let final := (cs.foldl (fun (acc : List Nat × Nat) c2 =>
        (levRow str1.data acc.1 (acc.2 + 1) c2, acc.2 + 1)) (row, i)).1
      final.length = str1.data.length + 1 ∧
      ∀ (idx : Nat) (h : idx < final.length),
        final.get ⟨idx, h⟩ ≤ max (i + cs.length) idx := by
    intro cs
    induction cs with
    | nil =>
      intro row i hlen hbnd
      exact ⟨hlen, fun idx h => le_trans (hbnd idx h) (by omega)⟩
    | cons c rest ih =>
      intro row i hlen hbnd
      simp only [List.foldl_cons]
      have hlen' : (levRow str1.data row (i + 1) c).length = str1.data.length + 1 := by
        unfold levRow
        simp [levGo_length, hlen]
      have hbnd' : ∀ (idx : Nat) (h : idx < (levRow str1.data row (i + 1) c).length),
          (levRow str1.data row (i + 1) c).get ⟨idx, h⟩ ≤ max (i + 1) idx := by
        unfold levRow
        intro idx h
        cases idx with
        | zero => simp
        | succ idx' =>
          simp only [List.get_cons_succ]
          have := levGo_bound c str1.data row (i + 1) (i + 1) 0
            (fun k hk => by simpa using hbnd k hk) (by simp) idx'
            (by simpa using h)
          simpa using this
      have := ih (levRow str1.data row (i + 1) c) (i + 1) hlen' hbnd'
      refine ⟨this.1, fun idx h => le_trans (this.2 idx h) (by simp; omega)⟩
  have hmain := hinv str2.data (List.range (str1.data.length + 1)) 0
    (by simp) (fun idx h => by simp)
  rcases hmain with ⟨hlen, hbnd⟩
  have hne : ((str2.data.foldl (fun (acc : List Nat × Nat) c2 =>
      (levRow str1.data acc.1 (acc.2 + 1) c2, acc.2 + 1))
      (List.range (str1.data.length + 1), 0)).1).length = str1.data.length + 1 := hlen
  rw [List.getLastD_eq_getLast?]
  rw [List.getLast?_eq_getElem?]
  rw [hne]
  simp only [Nat.add_sub_cancel]
  have hget := hbnd str1.data.length (by omega)
  rw [List.getElem?_eq_getElem (by omega)]
  simp only [Option.getD_some]
  have hconv : ∀ (l : List Nat) (i : Nat) (h : i < l.length), l[i] = l.get ⟨i, h⟩ :=
    fun _ _ _ => rfl
  rw [hconv _ _ (by omega)]
  refine le_trans hget ?_
  simp only [Nat.zero_add, String.length]
  omega

theorem calculateWordSimilarity_bounds (left right : String) :
    0 ≤ calculateWordSimilarity left right ∧ calculateWordSimilarity left right ≤ 1 := by
  unfold calculateWordSimilarity
  by_cases hgt : left.length > right.length
  · simp only [if_pos hgt]
    by_cases hz : left.length = 0
    · rw [if_pos hz]
      norm_num
    · rw [if_neg hz]
      have hle : levenshteinDistance left right ≤ left.length := by
        have := levenshteinDistance_le left right
        omega
      have hpos : (0 : ℚ) < (left.length : ℚ) := by
        exact_mod_cast Nat.pos_of_ne_zero hz
      constructor
      · apply div_nonneg _ (le_of_lt hpos)
        have : (levenshteinDistance left right : ℚ) ≤ (left.length : ℚ) := by
          exact_mod_cast hle
        linarith
      · rw [div_le_one hpos]
        have : (0 : ℚ) ≤ (levenshteinDistance left right : ℚ) := by positivity
        linarith
  · simp only [if_neg hgt]
    by_cases hz : right.length = 0
    · rw [if_pos hz]
      norm_num
    · rw [if_neg hz]
      have hle : levenshteinDistance right left ≤ right.length := by
        have := levenshteinDistance_le right left
        omega
      have hpos : (0 : ℚ) < (right.length : ℚ) := by
        exact_mod_cast Nat.pos_of_ne_zero hz
      constructor
      · apply div_nonneg _ (le_of_lt hpos)
        have : (levenshteinDistance right left : ℚ) ≤ (right.length : ℚ) := by
          exact_mod_cast hle
        linarith
      · rw [div_le_one hpos]
        have : (0 : ℚ) ≤ (levenshteinDistance right left : ℚ) := by positivity
        linarith

/-! ## Tokens are nonempty; nonidentity diffs have nonempty part values -/

theorem lineTokensAux_len :
    ∀ (cs acc : List Char) (t : String), t ∈ lineTokensAux cs acc → 1 ≤ t.length := by
  intro cs
  induction cs with
  | nil =>
    intro acc t ht
    unfold lineTokensAux at ht
    by_cases he : acc.isEmpty
    · rw [if_pos he] at ht
      cases ht
    · rw [if_neg he] at ht
      rcases List.mem_singleton.mp ht with rfl
      have hne : acc ≠ [] := by
        intro hc
        subst hc
        simp at he
      show 1 ≤ acc.reverse.length
      simp only [List.length_reverse]
      exact Nat.pos_of_ne_zero (fun hc => hne (List.length_eq_zero.mp hc))
  | cons c rest ih =>
    intro acc t ht
    unfold lineTokensAux at ht
    by_cases hc : c = '\n'
    · rw [if_pos hc] at ht
      rcases List.mem_cons.mp ht with rfl | h
      · show 1 ≤ (acc.reverse ++ ['\n']).length
        simp
      · exact ih [] t h
    · rw [if_neg hc] at ht
      exact ih (c :: acc) t ht

theorem lineTokenize_len (s : String) : ∀ t ∈ lineTokenize s, 1 ≤ t.length :=
  fun t ht => lineTokensAux_len s.data [] t ht

theorem diffSeqFuel_tok_mem :
    ∀ (fuel : Nat) (as bs : List String) (s : DSeg), s ∈ diffSeqFuel fuel as bs →
      s.tok ∈ as ∨ s.tok ∈ bs := by
  intro fuel
  induction fuel with
  | zero =>
    intro as bs s hs
    cases as with
    | nil =>
      cases bs with
      | nil => cases hs
      | cons b bs => simp [diffSeqFuel] at hs
    | cons a as =>
      cases bs with
      | nil => simp [diffSeqFuel] at hs
      | cons b bs => simp [diffSeqFuel] at hs
  | succ fuel ih =>
    intro as bs s hs
    cases as with
    | nil =>
      cases bs with
      | nil => cases hs
      | cons b bs =>
        simp only [diffSeqFuel] at hs
        rcases List.mem_cons.mp hs with rfl | h
        · exact Or.inr (List.mem_cons_self _ _)
        · rcases ih [] bs s h with h1 | h2
          · exact Or.inl h1
          · exact Or.inr (List.mem_cons_of_mem _ h2)
    | cons a as =>
      cases bs with
      | nil =>
        simp only [diffSeqFuel] at hs
        rcases List.mem_cons.mp hs with rfl | h
        · exact Or.inl (List.mem_cons_self _ _)
        · rcases ih as [] s h with h1 | h2
          · exact Or.inl (List.mem_cons_of_mem _ h1)
          · exact Or.inr h2
      | cons b bs =>
        simp only [diffSeqFuel] at hs
        by_cases hab : a = b
        · rw [if_pos hab] at hs
          rcases List.mem_cons.mp hs with rfl | h
          · exact Or.inl (List.mem_cons_self _ _)
          · rcases ih as bs s h with h1 | h2
            · exact Or.inl (List.mem_cons_of_mem _ h1)
            · exact Or.inr (List.mem_cons_of_mem _ h2)
        · rw [if_neg hab] at hs
          by_cases hcost : scriptCost (DSeg.del a :: diffSeqFuel fuel as (b :: bs))
              ≤ scriptCost (DSeg.ins b :: diffSeqFuel fuel (a :: as) bs)
          · rw [if_pos hcost] at hs
            rcases List.mem_cons.mp hs with rfl | h
            · exact Or.inl (List.mem_cons_self _ _)
            · rcases ih as (b :: bs) s h with h1 | h2
              · exact Or.inl (List.mem_cons_of_mem _ h1)
              · exact Or.inr h2
          · rw [if_neg hcost] at hs
            rcases List.mem_cons.mp hs with rfl | h
            · exact Or.inr (List.mem_cons_self _ _)
            · rcases ih (a :: as) bs s h with h1 | h2
              · exact Or.inl h1
              · exact Or.inr (List.mem_cons_of_mem _ h2)

theorem mergeSegs_ne_nil : ∀ (segs : List DSeg), segs ≠ [] → mergeSegs segs ≠ [] := by
  intro segs hne
  cases segs with
  | nil => exact absurd rfl hne
  | cons s rest =>
    cases hm : mergeSegs rest with
    | nil => simp [mergeSegs, hm]
    | cons p ps =>
      simp only [mergeSegs, hm]
      by_cases hst : ((s.toPart.added, s.toPart.removed) = (p.added, p.removed))
      · rw [if_pos hst]
        simp
      · rw [if_neg hst]
        simp

theorem mergeSegs_value_len :
    ∀ (segs : List DSeg), (∀ s ∈ segs, 1 ≤ s.tok.length) →
      ∀ p ∈ mergeSegs segs, 1 ≤ p.value.length := by
  intro segs
  induction segs with
  | nil =>
    intro _ p hp
    cases hp
  | cons s rest ih =>
    intro hseg p hp
    have htok : 1 ≤ s.tok.length := hseg s (List.mem_cons_self _ _)
    have htp : 1 ≤ s.toPart.value.length := by
      cases s <;> exact htok
    have hrest : ∀ x ∈ rest, 1 ≤ (DSeg.tok x).length :=
      fun x hx => hseg x (List.mem_cons_of_mem _ hx)
    cases hm : mergeSegs rest with
    | nil =>
      simp only [mergeSegs, hm] at hp
      rcases List.mem_singleton.mp hp with rfl
      exact htp
    | cons q qs =>
      simp only [mergeSegs, hm] at hp
      by_cases hst : ((s.toPart.added, s.toPart.removed) = (q.added, q.removed))
      · rw [if_pos hst] at hp
        rcases List.mem_cons.mp hp with rfl | h
        · show 1 ≤ (s.tok ++ q.value).length
          rw [String.length_append]
          omega
        · refine ih hrest p ?_
          rw [hm]
          exact List.mem_cons_of_mem _ h
      · rw [if_neg hst] at hp
        rcases List.mem_cons.mp hp with rfl | h
        · exact htp
        · refine ih hrest p ?_
          rw [hm]
          exact h

theorem diffSeq_ne_nil :
    ∀ (as bs : List String), ¬(as = [] ∧ bs = []) → diffSeq as bs ≠ [] := by
  intro as bs hne
  unfold diffSeq
  cases as with
  | nil =>
    cases bs with
    | nil => exact absurd ⟨rfl, rfl⟩ hne
    | cons b bs => simp [diffSeqFuel]
  | cons a as =>
    cases bs with
    | nil => simp [diffSeqFuel]
    | cons b bs =>
      show diffSeqFuel ((a :: as).length + (bs.length + 1)) _ _ ≠ []
      simp only [diffSeqFuel]
      split
      · simp
      · split <;> simp

theorem diffLines_parts {a b : String} (hne : lineTokenize a ≠ lineTokenize b) :
    diffLines a b ≠ [] ∧ ∀ p ∈ diffLines a b, 1 ≤ p.value.length := by
  have hform : diffLines a b = mergeSegs (diffSeq (lineTokenize a) (lineTokenize b)) := by
    simp [diffLines, jsdiffCore, hne]
  rw [hform]
  have hnotboth : ¬(lineTokenize a = [] ∧ lineTokenize b = []) := by
    rintro ⟨h1, h2⟩
    exact hne (h1.trans h2.symm)
  constructor
  · exact mergeSegs_ne_nil _ (diffSeq_ne_nil _ _ hnotboth)
  · refine mergeSegs_value_len _ ?_
    intro s hs
    rcases diffSeqFuel_tok_mem _ _ _ s hs with h1 | h2
    · exact lineTokenize_len a s.tok h1
    · exact lineTokenize_len b s.tok h2

theorem detectLineDifferences_ok_tokens_ne {lDoc rDoc : DocumentStructure}
    {ds : List PreciseDifference}
    (h : detectLineDifferences lDoc rDoc = Except.ok ds) :
    lineTokenize (extractFullContent lDoc) ≠ lineTokenize (extractFullContent rDoc) := by
  intro he
  have hparts : diffLines (extractFullContent lDoc) (extractFullContent rDoc)
      = [{ value := String.join (lineTokenize (extractFullContent rDoc)),
           count := (lineTokenize (extractFullContent rDoc)).length,
           added := false, removed := false }] := by
    simp [diffLines, jsdiffCore, he]
  simp [detectLineDifferences, hparts, List.foldlM, lineStep, Bind.bind, Except.bind] at h

theorem detectLineDifferences_ok_length {lDoc rDoc : DocumentStructure}
    {ds : List PreciseDifference}
    (h : detectLineDifferences lDoc rDoc = Except.ok ds) :
    ds.length = (diffLines (extractFullContent lDoc) (extractFullContent rDoc)).length := by
  cases hfold : (diffLines (extractFullContent lDoc) (extractFullContent rDoc)).foldlM
      (lineStep lDoc rDoc)
      { diffs := [], leftLineIndex := 0, rightLineIndex := 0, diffIndex := 0 } with
  | error e =>
    exfalso
    simp only [detectLineDifferences, hfold, Bind.bind, Except.bind] at h
    cases h
  | ok st =>
    simp only [detectLineDifferences, hfold, Bind.bind, Except.bind, Except.ok.injEq] at h
    subst h
    have := lineFold_length lDoc rDoc _ _ _ hfold
    simpa using this

/-! ## Claim C8: all scores are well-defined and lie in [0, 1] -/

/-- Similarity and confidence of a difference lie in `[0, 1]`. -/
def ScoreBounded (d : PreciseDifference) : Prop :=
  0 ≤ d.similarity ∧ d.similarity ≤ 1 ∧ 0 ≤ d.confidence ∧ d.confidence ≤ 1

theorem scoreBounded_of_mem {lDoc rDoc : DocumentStructure} {ld : List PreciseDifference}
    {d : PreciseDifference} (hld : detectLineDifferences lDoc rDoc = Except.ok ld)
    (hd : d ∈ ld ++ detectWordDifferences lDoc rDoc
      ++ detectStructuralDifferences lDoc rDoc) : ScoreBounded d := by
  rcases List.mem_append.mp hd with h1 | hstruct
  · rcases List.mem_append.mp h1 with hline | hword
    · refine detectLineDifferences_ok_invariant ScoreBounded hld ?_ d hline
      intro part _ idx pos
      exact ⟨by norm_num [ScoreBounded, mkLineAdd], by norm_num [ScoreBounded, mkLineDel]⟩
    · rcases detectWordDifferences_mem hword with ⟨i, idx, lp, rp, wi, isAdded, value, rfl⟩
      have hsim := calculateWordSimilarity_bounds lp rp
      refine ⟨hsim.1, hsim.2, ?_, ?_⟩
      · norm_num [mkWordDiff]
      · norm_num [mkWordDiff]
  · rcases detectStructuralDifferences_mem hstruct with rfl | ⟨j, isAdded, value, rfl⟩
    · refine ⟨?_, ?_, ?_, ?_⟩ <;> norm_num [mkPageCountDiff]
    · refine ⟨?_, ?_, ?_, ?_⟩ <;> norm_num [mkSectionDiff]

theorem foldl_add_nat (f : PreciseDifference → Nat) :
    ∀ (l : List PreciseDifference) (init : Nat),
      l.foldl (fun s d => s + f d) init = init + (l.map f).sum := by
  intro l
  induction l with
  | nil => intro init; simp
  | cons d t ih =>
    intro init
    simp only [List.foldl_cons, List.map_cons, List.sum_cons, ih]
    omega

theorem foldl_add_rat (f : PreciseDifference → ℚ) :
    ∀ (l : List PreciseDifference) (init : ℚ),
      l.foldl (fun s d => s + f d) init = init + (l.map f).sum := by
  intro l
  induction l with
  | nil => intro init; simp
  | cons d t ih =>
    intro init
    simp only [List.foldl_cons, List.map_cons, List.sum_cons, ih]
    ring

theorem jsDiv_den_ne {a b : ℚ} (hb : b ≠ 0) : jsDiv a b = JsNum.num (a / b) := by
  unfold jsDiv
  rw [if_neg hb]

theorem jsDiv_neg_zero {a : ℚ} (ha : a < 0) : jsDiv a 0 = JsNum.negInf := by
  unfold jsDiv
  rw [if_pos rfl, if_neg (ne_of_lt ha), if_neg (not_lt.mpr (le_of_lt ha))]

theorem jsDiv_zero_zero : jsDiv 0 0 = JsNum.nan := by
  unfold jsDiv
  rw [if_pos rfl, if_pos rfl]

theorem jsMax0_negInf : jsMax0 JsNum.negInf = JsNum.num 0 := rfl

theorem jsMax0_num (q : ℚ) : jsMax0 (JsNum.num q) = JsNum.num (max 0 q) := rfl

theorem jsOr0_num (q : ℚ) : jsOr0 (JsNum.num q) = JsNum.num q := rfl

theorem jsOr0_nan : jsOr0 JsNum.nan = JsNum.num 0 := rfl

/-- **C8** — In every comparison result the engine returns, each difference's
`similarity` and `confidence`, as well as `statistics.overallSimilarity` and
`statistics.averageConfidence`, are finite numbers (never `NaN`/infinite) in
the closed interval `[0, 1]`. -/
theorem scores_bounded (lDoc rDoc : DocumentStructure) (res : ComparisonResult)
    (h : compareDocuments lDoc rDoc = Except.ok res) :
    (∀ d ∈ res.differences,
      0 ≤ d.similarity ∧ d.similarity ≤ 1 ∧ 0 ≤ d.confidence ∧ d.confidence ≤ 1) ∧
    (∃ q, res.statistics.overallSimilarity = JsNum.num q ∧ 0 ≤ q ∧ q ≤ 1) ∧
    (∃ q, res.statistics.averageConfidence = JsNum.num q ∧ 0 ≤ q ∧ q ≤ 1) := by
  obtain ⟨ld, hld, hdiffs, hstats⟩ := compareDocuments_ok h
  -- every member of the optimized list is score-bounded
  have hmem_bounded : ∀ d ∈ res.differences, ScoreBounded d := by
    intro d hd
    rw [hdiffs] at hd
    exact scoreBounded_of_mem hld (mem_optimize hd)
  refine ⟨fun d hd => hmem_bounded d hd, ?_, ?_⟩
  -- the optimized list contains a difference with a nonempty content side
  · have htok := detectLineDifferences_ok_tokens_ne hld
    have hparts := diffLines_parts htok
    have hlen := detectLineDifferences_ok_length hld
    have hldne : ld ≠ [] := by
      intro hc
      subst hc
      simp only [List.length_nil] at hlen
      exact hparts.1 (List.length_eq_zero.mp hlen.symm)
    have hcontent : ∀ d ∈ ld, 1 ≤ max d.leftContent.length d.rightContent.length := by
      refine detectLineDifferences_ok_invariant _ hld ?_
      intro part hpart idx pos
      have := hparts.2 part hpart
      constructor
      · show 1 ≤ max ("" : String).length part.value.length
        rw [show ("" : String).length = 0 from rfl]
        omega
      · show 1 ≤ max part.value.length ("" : String).length
        rw [show ("" : String).length = 0 from rfl]
        omega
    obtain ⟨d0, t0, hld0⟩ : ∃ d0 t0, ld = d0 :: t0 := by
      cases ld with
      | nil => exact absurd rfl hldne
      | cons d0 t0 => exact ⟨d0, t0, rfl⟩
    have hd0 : d0 ∈ res.differences := by
      rw [hdiffs, hld0]
      show d0 ∈ optimizeDifferences (d0 :: (t0 ++ detectWordDifferences lDoc rDoc
        ++ detectStructuralDifferences lDoc rDoc))
      unfold optimizeDifferences sortDiffs
      rw [(List.perm_insertionSort posLe _).mem_iff]
      rw [uniqueDifferences_cons]
      exact List.mem_cons_self _ _
    -- changedChars is at least 1
    have hchanged : 1 ≤ (res.differences.map
        (fun d => max d.leftContent.length d.rightContent.length)).sum := by
      have hd0c : 1 ≤ max d0.leftContent.length d0.rightContent.length :=
        hcontent d0 (hld0 ▸ List.mem_cons_self _ _)
      have hmm : max d0.leftContent.length d0.rightContent.length
          ∈ res.differences.map (fun d => max d.leftContent.length d.rightContent.length) :=
        List.mem_map.mpr ⟨d0, hd0, rfl⟩
      have := List.single_le_sum (fun (x : Nat) _ => Nat.zero_le x) _ hmm
      omega
    rw [hstats]
    unfold calculateStatistics
    simp only
    rw [foldl_add_nat]
    simp only [Nat.zero_add]
    rw [← hdiffs]
    set C := (res.differences.map
      (fun d => max d.leftContent.length d.rightContent.length)).sum with hC
    set T := max lDoc.characterCount rDoc.characterCount with hT
    have hCge : (1 : ℚ) ≤ (C : ℚ) := by exact_mod_cast hchanged
    by_cases hT0 : T = 0
    · -- numerator negative, divisor zero: -Infinity, clamped to 0
      rw [hT0]
      simp only [Nat.cast_zero]
      rw [jsDiv_neg_zero (by linarith), jsMax0_negInf]
      exact ⟨0, rfl, le_refl 0, by norm_num⟩
    · have hTpos : (0 : ℚ) < (T : ℚ) := by
        exact_mod_cast Nat.pos_of_ne_zero hT0
      rw [jsDiv_den_ne (by exact_mod_cast hT0), jsMax0_num]
      refine ⟨max 0 (((T : ℚ) - (C : ℚ)) / (T : ℚ)), rfl, le_max_left _ _, ?_⟩
      have hdivle : ((T : ℚ) - (C : ℚ)) / (T : ℚ) ≤ 1 := by
        rw [div_le_one hTpos]
        have : (0 : ℚ) ≤ (C : ℚ) := by positivity
        linarith
      exact max_le (by norm_num) hdivle
  -- average confidence
  · rw [hstats]
    unfold calculateStatistics
    simp only
    rw [foldl_add_rat]
    simp only [zero_add]
    rw [← hdiffs]
    cases hcase : res.differences with
    | nil =>
      simp only [List.map_nil, List.sum_nil, List.length_nil, Nat.cast_zero]
      rw [jsDiv_zero_zero, jsOr0_nan]
      exact ⟨0, rfl, le_refl 0, by norm_num⟩
    | cons d0 t0 =>
      have hlenpos : (0 : ℚ) < ((d0 :: t0).length : ℚ) := by
        exact_mod_cast Nat.succ_pos t0.length
      have hbnds : ∀ x ∈ (d0 :: t0).map (fun d => d.confidence),
          0 ≤ x ∧ x ≤ 1 := by
        intro x hx
        rcases List.mem_map.mp hx with ⟨d, hdm, rfl⟩
        have := hmem_bounded d (hcase ▸ hdm)
        exact ⟨this.2.2.1, this.2.2.2⟩
      have hsum0 : 0 ≤ ((d0 :: t0).map (fun d => d.confidence)).sum :=
        List.sum_nonneg (fun x hx => (hbnds x hx).1)
      have hsumle : ((d0 :: t0).map (fun d => d.confidence)).sum
          ≤ ((d0 :: t0).length : ℚ) := by
        have := List.sum_le_card_nsmul ((d0 :: t0).map (fun d => d.confidence)) 1
          (fun x hx => (hbnds x hx).2)
        simpa [nsmul_eq_mul] using this
      rw [jsDiv_den_ne (by positivity), jsOr0_num]
      refine ⟨_, rfl, ?_, ?_⟩
      · positivity
      · rw [div_le_one hlenpos]
        exact hsumle

/-- Witness for C8 at the concrete documents `"a"` and `"b"`. -/
theorem scores_bounded_witness :
    ∃ res, compareDocuments sampleDocA sampleDocB = Except.ok res ∧
      ((∀ d ∈ res.differences,
        0 ≤ d.similarity ∧ d.similarity ≤ 1 ∧ 0 ≤ d.confidence ∧ d.confidence ≤ 1) ∧
      (∃ q, res.statistics.overallSimilarity = JsNum.num q ∧ 0 ≤ q ∧ q ≤ 1) ∧
      (∃ q, res.statistics.averageConfidence = JsNum.num q ∧ 0 ≤ q ∧ q ≤ 1)) := by
  obtain ⟨res, hres⟩ :
      ∃ res, compareDocuments sampleDocA sampleDocB = Except.ok res := ⟨_, rfl⟩
  exact ⟨res, hres, scores_bounded sampleDocA sampleDocB res hres⟩
